import Mathlib

/-!
Verification of the learner worker from `algorithms/appo/learner.py`
(sample-factory).  The pure fragments of the Python code are translated into
executable Lean definitions below; machine integers are modelled as `Nat`/`Int`
and Python floats appearing in exact arithmetic positions as `ℚ`.  The theorems
at the end of the file settle the specified properties of this code.
-/

namespace Learner

/-- Configuration fields of `self.cfg` used by the experience-processing code
of the learner. -/
structure Cfg where
  batch_size : Nat
  num_batches_per_iteration : Nat
  rollout : Nat
  recurrence : Nat
  max_policy_lag : Int
  num_minibatches_to_accumulate : Int
  keep_checkpoints : Nat
deriving Repr, DecidableEq

/-- A rollout descriptor as the learner sees it after `_extract_rollouts`: the
slab slot it references (flattened `(worker, split, env, agent, traj_buffer)`
coordinates), the minimum policy version among its transitions
(`r['t']['policy_version'].min().item()`), and the `length` / `env_steps`
metadata sent by the producer. -/
structure Rollout where
  slot : Nat
  minVersion : Int
  length : Nat
  env_steps : Nat
deriving Repr, DecidableEq

/-- Slot-level events on the shared rollout slab: a producer handing a filled
slot over to the learner (`write`, the TRAIN message for that slot), the
learner reading the slot's tensors (`read`), and `_mark_rollout_buffer_free`
setting the slot's availability flag back to 1 (`free`). -/
inductive Ev where
  | write (slot : Nat)
  | read (slot : Nat)
  | free (slot : Nat)
deriving Repr, DecidableEq

/-- Translation of `_macro_batch_size`. -/
def macro_batch_size (cfg : Cfg) (batchSize : Nat) : Nat :=
  cfg.num_batches_per_iteration * batchSize

/-- Staleness scan at the top of `_process_rollouts`: walk the pending queue
from the front, and while `policy_version - rollout_min_version >=
cfg.max_policy_lag` holds mark the slot free and count the rollout as
discarded, stopping at the first fresh rollout.  Returns the emitted slot
events (the version read, then the free for a discarded rollout) together with
the number of discarded rollouts. -/
def stale_scan (policyVersion maxLag : Int) : List Rollout → List Ev × Nat
  | [] => ([], 0)
  | r :: rs =>
      if maxLag ≤ policyVersion - r.minVersion then
        let rest := stale_scan policyVersion maxLag rs
        (.read r.slot :: .free r.slot :: rest.1, rest.2 + 1)
      else
        ([.read r.slot], 0)

/-- Sample counter summed over a macro-batch in `_process_macro_batch`
(`samples += rollout['length']`). -/
def sample_count (rs : List Rollout) : Nat :=
  (rs.map Rollout.length).sum

/-- Environment-step counter summed over a macro-batch in
`_process_macro_batch` (`env_steps += rollout['env_steps']`). -/
def env_step_count (rs : List Rollout) : Nat :=
  (rs.map Rollout.env_steps).sum

/-- Slot events of `_prepare_train_buffer`: the tensors of every consumed
rollout are read (copied into the macro-batch buffer, including the GAE pass
when enabled), and afterwards `_mark_rollout_buffer_free` frees each slot. -/
def prepare_events (rs : List Rollout) : List Ev :=
  rs.map (fun r => .read r.slot) ++ rs.map (fun r => .free r.slot)

/-- Result of one `_process_rollouts` call: the rollouts still pending, the
macro-batch handed to `_process_macro_batch` (if any), the number of rollouts
discarded by the staleness scan (added to `num_discarded_rollouts`), and the
slot events emitted during the call. -/
structure ProcessResult where
  pending : List Rollout
  batch : Option (List Rollout)
  discarded : Nat
  events : List Ev
deriving Repr, DecidableEq

/-- Translation of `_process_rollouts`: if fewer than
`rollouts_in_macro_batch` rollouts are pending, return them unchanged;
otherwise discard the stale front prefix, and if enough rollouts remain,
consume the oldest `rollouts_in_macro_batch` of them into a macro-batch. -/
def process_rollouts (cfg : Cfg) (trainStep : Int) (rollouts : List Rollout) :
    ProcessResult :=
  let batchSize := cfg.batch_size
  let rolloutsInMacroBatch := macro_batch_size cfg batchSize / cfg.rollout
  if rollouts.length < rolloutsInMacroBatch then
    ⟨rollouts, none, 0, []⟩
  else
    let scan := stale_scan trainStep cfg.max_policy_lag rollouts
    let rest := rollouts.drop scan.2
    if rolloutsInMacroBatch ≤ rest.length then
      let toProcess := rest.take rolloutsInMacroBatch
      ⟨rest.drop rolloutsInMacroBatch, some toProcess, scan.2,
        scan.1 ++ prepare_events toProcess⟩
    else
      ⟨rest, none, scan.2, scan.1⟩

/-- Ownership checker for a slot-event trace.  `owned` is the set of slots
currently handed over to the learner (availability flag 0 with the data
published).  A producer may `write` only a slot it owns (flag 1, i.e. not in
`owned`); the learner may `read` or `free` only slots in `owned`, and `free`
returns the slot to the producers. -/
def trace_ok (owned : List Nat) : List Ev → Bool
  | [] => true
  | .write s :: evs => if s ∈ owned then false else trace_ok (s :: owned) evs
  | .read s :: evs => if s ∈ owned then trace_ok owned evs else false
  | .free s :: evs => if s ∈ owned then trace_ok (owned.erase s) evs else false

/-- The owned-slot set left behind by a trace (the fold `trace_ok` performs). -/
def owned_after (owned : List Nat) : List Ev → List Nat
  | [] => owned
  | .write s :: evs => owned_after (s :: owned) evs
  | .read _ :: evs => owned_after owned evs
  | .free s :: evs => owned_after (owned.erase s) evs

/-- One iteration of the learner main loop restricted to experience handling:
rollouts extracted from the TRAIN messages received this tick are appended to
the pending list (each submission was preceded by the producer's slot handoff,
the `write` event) and `_process_rollouts` runs on the extended list. -/
def learner_step (cfg : Cfg) (st : List Rollout) (input : Int × List Rollout) :
    List Ev × List Rollout :=
  let pending := st ++ input.2
  let res := process_rollouts cfg input.1 pending
  (input.2.map (fun r => .write r.slot) ++ res.events, res.pending)

/-- Iterated learner loop: fold `learner_step` over a sequence of ticks, each
carrying the current train step and the newly submitted rollouts, collecting
the full slot-event trace. -/
def learner_run (cfg : Cfg) (st : List Rollout) :
    List (Int × List Rollout) → List Ev × List Rollout
  | [] => ([], st)
  | b :: bs =>
      let step := learner_step cfg st b
      let rest := learner_run cfg step.2 bs
      (step.1 ++ rest.1, rest.2)

/-- Well-formedness of a submission sequence: producers follow the
availability-flag protocol, so every TRAIN batch names pairwise distinct slots
none of which is still pending on the learner side. -/
def wf_submissions (cfg : Cfg) (st : List Rollout) :
    List (Int × List Rollout) → Bool
  | [] => true
  | b :: bs =>
      decide (b.2.map Rollout.slot).Nodup &&
      decide (∀ s ∈ b.2.map Rollout.slot, s ∉ st.map Rollout.slot) &&
      wf_submissions cfg (learner_step cfg st b).2 bs

/-- State of the backpressure section of `_run`: the shared
`stop_experience_collection` flag for this policy, the two log-throttling
counters, the number of throttled log lines actually emitted, and the number
of `resume_experience_collection_cv.notify_all()` broadcasts issued. -/
structure BpState where
  stop : Bool
  stopMsgs : Nat
  resumeMsgs : Nat
  stopLogs : Nat
  resumeLogs : Nat
  notifications : Nat
deriving Repr, DecidableEq

/-- Translation of the backpressure block of `_run` for one scheduling tick,
`tooMuch` being the value of `_accumulated_too_much_experience(rollouts)`. -/
def bp_tick (st : BpState) (tooMuch : Bool) : BpState :=
  if tooMuch then
    if st.stop = false then
      let m := st.stopMsgs + 1
      if 50 ≤ m then
        { st with stop := true, stopMsgs := 0, stopLogs := st.stopLogs + 1 }
      else
        { st with stop := true, stopMsgs := m }
    else
      { st with stop := true }
  else if st.stop then
    let m := st.resumeMsgs + 1
    if 50 ≤ m then
      { st with stop := false, resumeMsgs := 0, resumeLogs := st.resumeLogs + 1, notifications := st.notifications + 1 }
    else
      { st with stop := false, resumeMsgs := m, notifications := st.notifications + 1 }
  else st

/-- Iterated backpressure ticks over a synthetic over-threshold stream. -/
def bp_run (st : BpState) : List Bool → BpState
  | [] => st
  | t :: ts => bp_run (bp_tick st t) ts

/-- Initial backpressure state of a freshly constructed learner. -/
def bp0 : BpState := ⟨false, 0, 0, 0, 0, 0⟩

/-- Translation of `_accumulated_too_much_experience`; the Python float
division is modelled exactly over `ℚ`. -/
def accumulated_too_much_experience (cfg : Cfg) (isTraining : Bool)
    (numRollouts qsize : Nat) : Bool :=
  let maxToAccumulate : Int :=
    if cfg.num_minibatches_to_accumulate = -1 then
      2 * cfg.num_batches_per_iteration
    else cfg.num_minibatches_to_accumulate
  let maxOnLearner : Int := maxToAccumulate + cfg.num_batches_per_iteration
  let currentlyTraining : ℚ :=
    (if isTraining then 1 else 0) * cfg.num_batches_per_iteration
  let rolloutsPerMinibatch : ℚ := (cfg.batch_size : ℚ) / (cfg.rollout : ℚ)
  let accumulated : ℚ := (numRollouts : ℚ) / rolloutsPerMinibatch
    + (qsize : ℚ) * cfg.num_batches_per_iteration
  decide ((maxOnLearner : ℚ) ≤ currentlyTraining + accumulated)

/-- The committed-minibatch count as the specification describes it: the
minibatches currently being trained on, plus pending rollouts divided by
rollouts-per-minibatch, plus queued macro-batches times minibatches per
iteration. -/
def committed_minibatches (cfg : Cfg) (isTraining : Bool)
    (numRollouts qsize : Nat) : ℚ :=
  (if isTraining then (cfg.num_batches_per_iteration : ℚ) else 0)
    + (numRollouts : ℚ) / ((cfg.batch_size : ℚ) / (cfg.rollout : ℚ))
    + (qsize : ℚ) * cfg.num_batches_per_iteration

/-- The learner's backpressure threshold: the configured
`num_minibatches_to_accumulate` (with `-1` meaning the default of twice the
minibatches per iteration) plus the minibatches of the batch currently in
training. -/
def max_minibatches_on_learner (cfg : Cfg) : Int :=
  (if cfg.num_minibatches_to_accumulate = -1 then
    (2 * cfg.num_batches_per_iteration : Int)
  else cfg.num_minibatches_to_accumulate) + cfg.num_batches_per_iteration

/-- Lexicographic comparison of code-point lists, as Python compares the
strings returned by `glob` when `sorted` ranks checkpoint filenames. -/
def lexLt : List Nat → List Nat → Bool
  | [], [] => false
  | [], _ :: _ => true
  | _ :: _, [] => false
  | a :: as, b :: bs => if a < b then true else if b < a then false else lexLt as bs

/-- Weak form of the lexicographic order used as the sorting relation. -/
def LexLe (a b : List Nat) : Prop := lexLt b a = false

instance : DecidableRel LexLe := fun a b => instDecidableEqBool (lexLt b a) false

/-- Python's `sorted` on a list of strings (modelled as code-point lists). -/
def sortedLex (l : List (List Nat)) : List (List Nat) :=
  l.insertionSort LexLe

/-- Code points of a string literal. -/
def strCodes (s : String) : List Nat := s.toList.map Char.toNat

/-- Fixed-width decimal representation (as code points) of a natural number,
as produced by Python's `{:09d}` format for numbers below `10 ^ width`. -/
def padDigits : Nat → Nat → List Nat
  | 0, _ => []
  | w + 1, n => (48 + n / 10 ^ w) :: padDigits w (n % 10 ^ w)

/-- Decimal representation of a natural number without padding, as produced by
Python's `{}` format. -/
def decDigits (n : Nat) : List Nat := padDigits (Nat.log 10 n + 1) n

/-- The checkpoint filename `f'checkpoint_{train_step:09d}_{env_steps}.pth'`
built in `_save`, as a code-point list. -/
def checkpoint_name (trainStep envSteps : Nat) : List Nat :=
  strCodes "checkpoint_" ++ padDigits 9 trainStep ++ [95] ++ decDigits envSteps
    ++ strCodes ".pth"

/-- A path inside the checkpoint directory, as a list of path segments (each a
code-point list).  Regular checkpoints are direct children; milestone copies
live under the `milestones/` subdirectory. -/
abbrev FsPath := List (List Nat)

/-- Direct-children names matched by `glob.glob(join(dir, 'checkpoint_*'))`:
the pattern is not recursive, so only single-segment paths whose name starts
with `checkpoint_` match. -/
def checkpoint_names (dir : List FsPath) : List (List Nat) :=
  dir.filterMap (fun p =>
    match p with
    | [name] => if (strCodes "checkpoint_").isPrefixOf name then some name else none
    | _ => none)

/-- Translation of `get_checkpoints`: glob, then `sorted`. -/
def get_checkpoints (dir : List FsPath) : List (List Nat) :=
  sortedLex (checkpoint_names dir)

/-- Creation of a filesystem entry if absent (`os.rename` onto a fresh name,
`ensure_dir_exists`, or `shutil.copy`; an existing entry is overwritten in
place, leaving the directory listing unchanged). -/
def touch (p : FsPath) (dir : List FsPath) : List FsPath :=
  if p ∈ dir then dir else dir ++ [p]

/-- Membership of a checkpoint name among the directory's matched children. -/
theorem mem_checkpoint_names {dir : List FsPath} {n : List Nat} :
    n ∈ checkpoint_names dir ↔
      [n] ∈ dir ∧ (strCodes "checkpoint_").isPrefixOf n = true := by
  constructor
  · intro h
    rcases List.mem_filterMap.mp h with ⟨p, hp, hf⟩
    match p with
    | [] => simp at hf
    | [m] =>
        by_cases hpre : (strCodes "checkpoint_").isPrefixOf m
        · simp [hpre] at hf
          exact ⟨hf ▸ hp, hf ▸ hpre⟩
        · simp [hpre] at hf
    | _ :: _ :: _ => simp at hf
  · intro ⟨hmem, hpre⟩
    exact List.mem_filterMap.mpr ⟨[n], hmem, by simp [hpre]⟩

/-- Head of `get_checkpoints` is an existing directory entry (used for the
termination of the pruning loop). -/
theorem head_get_checkpoints_mem {dir : List FsPath} {keep : Nat}
    (h : keep < (get_checkpoints dir).length) :
    [(get_checkpoints dir).headD []] ∈ dir := by
  have hne : get_checkpoints dir ≠ [] := by
    intro hnil
    rw [hnil] at h
    simp at h
  have hmem : (get_checkpoints dir).headD [] ∈ get_checkpoints dir := by
    cases hgc : get_checkpoints dir with
    | nil => exact absurd hgc hne
    | cons a l => simp
  have hmem2 : (get_checkpoints dir).headD [] ∈ checkpoint_names dir := by
    have h2 : (get_checkpoints dir).headD [] ∈
        List.insertionSort LexLe (checkpoint_names dir) := hmem
    exact (List.perm_insertionSort LexLe (checkpoint_names dir)).mem_iff.mp h2
  exact (mem_checkpoint_names.mp hmem2).1

/-- Translation of the pruning loop of `_save`: while more than
`keep_checkpoints` files match the checkpoint glob, remove the
lexicographically smallest one. -/
def prune_loop (keep : Nat) (dir : List FsPath) : List FsPath :=
  if h : keep < (get_checkpoints dir).length then
    prune_loop keep (dir.erase [(get_checkpoints dir).headD []])
  else dir
termination_by dir.length
decreasing_by
  have hm := head_get_checkpoints_mem h
  have hlen := List.length_erase_of_mem hm
  have hpos : 0 < dir.length := List.length_pos.mpr (by rintro rfl; simp at hm)
  omega

/-- Filesystem effect of `_save`: write the checkpoint to a temporary name and
rename it to `checkpoint_{train_step:09d}_{env_steps}.pth`, prune old
checkpoints, and—when a milestone is due—copy the freshly written file into
the `milestones/` subdirectory. -/
def save_checkpoint (keep trainStep envSteps : Nat) (milestoneDue : Bool)
    (dir : List FsPath) : List FsPath :=
  let name := checkpoint_name trainStep envSteps
  let dir1 := touch [name] dir
  let dir2 := prune_loop keep dir1
  if milestoneDue then
    touch [strCodes "milestones", name ++ strCodes ".milestone"]
      (touch [strCodes "milestones"] dir2)
  else dir2

/-- A sequence of `_save` calls, each with its train step, env-step count and
whether the milestone cadence fired. -/
def save_run (keep : Nat) (dir : List FsPath) :
    List (Nat × Nat × Bool) → List FsPath
  | [] => dir
  | s :: rest => save_run keep (save_checkpoint keep s.1 s.2.1 s.2.2 dir) rest

/-- Learner-local training state referenced by checkpointing: the progress
counters `train_step` / `env_steps` and the opaque model and optimizer
states. -/
structure LearnerState (M O : Type) where
  train_step : Nat
  env_steps : Nat
  model : M
  optimizer : O
deriving Repr, DecidableEq

/-- Contents of a serialized checkpoint as built by `_get_checkpoint_dict`. -/
structure CheckpointDict (M O : Type) where
  train_step : Nat
  env_steps : Nat
  model : M
  optimizer : O
deriving Repr, DecidableEq

/-- Translation of `_load_state`: model and optimizer state are always
restored; the progress counters only when `load_progress` is set. -/
def load_state (s : LearnerState M O) (cp : CheckpointDict M O)
    (loadProgress : Bool) : LearnerState M O :=
  let s1 :=
    if loadProgress then
      { s with train_step := cp.train_step, env_steps := cp.env_steps }
    else s
  { s1 with model := cp.model, optimizer := cp.optimizer }

/-- Bounded retry loop of `load_checkpoint`: `readCk latest attempt` is the
outcome of deserializing `latest` on the given attempt (`none` models a raised
exception, which the code logs and swallows). -/
def try_load (readCk : α → Nat → Option β) (latest : α) :
    Nat → Nat → Option β
  | 0, _ => none
  | n + 1, attempt =>
      match readCk latest attempt with
      | some d => some d
      | none => try_load readCk latest n (attempt + 1)

/-- Translation of the static `load_checkpoint`: with no checkpoint files
return `None`; otherwise deserialize the last (lexicographically greatest,
since the input is sorted) file with up to 3 attempts, returning `None` when
every attempt fails. -/
def load_checkpoint (cks : List α) (readCk : α → Nat → Option β) : Option β :=
  match cks.getLast? with
  | none => none
  | some latest => try_load readCk latest 3 0

/-- Translation of `load_from_checkpoint`: list the checkpoints of
`policyId`'s directory, try to load the newest, and either keep the current
state (fail soft) or restore it, reloading the progress counters only when the
checkpoint belongs to this learner's own policy. -/
def load_from_checkpoint (selfPolicyId policyId : Nat) (dir : List FsPath)
    (readCk : List Nat → Nat → Option (CheckpointDict M O))
    (s : LearnerState M O) : LearnerState M O :=
  match load_checkpoint (get_checkpoints dir) readCk with
  | none => s
  | some cp => load_state s cp (policyId == selfPolicyId)

/-- Translation of `np.arange(i, i + recurrence)`: the indices of one
backpropagation-through-time window. -/
def window_indices (rec i : Nat) : List Nat := (List.range rec).map (i + ·)

/-- Translation of `np.arange(0, experience_size, recurrence)` (with
`recurrence` dividing `experience_size`): the aligned window start offsets. -/
def window_starts (experienceSize rec : Nat) : List Nat :=
  (List.range (experienceSize / rec)).map (· * rec)

/-- Expansion of a list of window starts into the concatenation of their full
index windows, as the list comprehension plus `np.concatenate` does. -/
def expand_windows (rec : Nat) (perm : List Nat) : List Nat :=
  (perm.map (window_indices rec)).flatten

/-- Splitting into `k` consecutive sections of `c` elements each. -/
def chunks_go (c : Nat) : Nat → List α → List (List α)
  | 0, _ => []
  | k + 1, l => l.take c :: chunks_go c k (l.drop c)

/-- Translation of `np.split(indices, num_minibatches)` under the exact
divisibility asserted by the code: `n` sections of `len / n` elements. -/
def split_parts (n : Nat) (l : List α) : List (List α) :=
  chunks_go (l.length / n) n l

/-- Translation of `_get_minibatches`; the window-level shuffle
`np.random.permutation` is passed in explicitly as the already permuted list
of window starts. -/
def get_minibatches (cfg : Cfg) (batchSize experienceSize : Nat)
    (perm : List Nat) : List (Option (List Nat)) :=
  if cfg.num_batches_per_iteration = 1 then [none]
  else
    let indices := expand_windows cfg.recurrence perm
    let numMinibatches := experienceSize / batchSize
    (split_parts numMinibatches indices).map some

/-- Modelled from the spec: the Generalized Advantage Estimation recursion of
`calculate_gae` (imported from `algorithms.utils.algo_utils`, whose source is
not part of this snapshot).  Per spec section 4.5 it is standard GAE over a
trajectory: `delta_t = r_t + gamma*(1-d_t)*V_(t+1) - V_t` and
`A_t = delta_t + gamma*lambda*(1-d_t)*A_(t+1)`, computed against the value
list extended with the appended bootstrap value, so that the advantage of the
very last action is zero. -/
def gae_adv (g lam : ℚ) : List ℚ → List ℚ → List ℚ → List ℚ
  | r :: rs, d :: ds, v :: v2 :: vs =>
      let rest := gae_adv g lam rs ds (v2 :: vs)
      let aNext := rest.headD 0
      ((r + g * (1 - d) * v2 - v) + g * lam * (1 - d) * aNext) :: rest
  | _, _, _ => []

/-- Translation of `_calculate_gae` for a single trajectory: append the fake
bootstrap value `(last_value - last_reward) / gamma` to the value sequence and
run the GAE recursion on the result. -/
def calculate_gae_path (g lam : ℚ) (rs ds vs : List ℚ) : List ℚ :=
  gae_adv g lam rs ds (vs ++ [((vs.getLastD 0) - (rs.getLastD 0)) / g])

/-- Backward V-trace recursion of `_train` for a single trajectory, carrying
the bootstrap `b` as the initial `next_values`/`next_vs`.  Returns the value
targets `vs` and the advantages. -/
def vtrace_go (g rhoHat cHat b : ℚ) :
    List ℚ → List ℚ → List ℚ → List ℚ → List ℚ × List ℚ
  | r :: rs, d :: ds, v :: vtl, p :: ps =>
      let rest := vtrace_go g rhoHat cHat b rs ds vtl ps
      let vNext := vtl.headD b
      let vsNext := rest.1.headD b
      let rho := min rhoHat p
      let c := min cHat p
      let deltaS := rho * (r + g * (1 - d) * vNext - v)
      let a := rho * (r + g * (1 - d) * vsNext - v)
      ((v + deltaS + g * (1 - d) * c * (vsNext - vNext)) :: rest.1, a :: rest.2)
  | _, _, _, _ => ([], [])

/-- The V-trace advantages of `_train`: the bootstrap pseudo-next-value is
`(values[-1] - rewards[-1]) / gamma`, exactly as for the GAE path. -/
def vtrace_adv (g rhoHat cHat : ℚ) (rs ds vs ps : List ℚ) : List ℚ :=
  (vtrace_go g rhoHat cHat ((vs.getLastD 0 - rs.getLastD 0) / g) rs ds vs ps).2

/-- Configuration hitting the backpressure boundary: one minibatch per
iteration, rollouts exactly one minibatch long, default accumulation limit. -/
def bpCfg : Cfg := ⟨64, 1, 64, 32, 5, -1, 3⟩

/-- Configuration for the staleness counterexample: macro-batches of two
one-step rollouts and a policy-lag bound of 1. -/
def lagCfg : Cfg := ⟨2, 1, 1, 1, 1, -1, 3⟩

/-- A fresh rollout (policy version equal to the current train step 5). -/
def freshRollout : Rollout := ⟨0, 5, 1, 1⟩

/-- A very stale rollout (policy version 0 at train step 5). -/
def staleRollout : Rollout := ⟨1, 0, 1, 1⟩

/-- A two-checkpoint directory used to evaluate checkpoint loading. -/
def ckDir9 : List FsPath := [[checkpoint_name 2 5], [checkpoint_name 10 7]]

end Learner

namespace Learner

/-! Theorems.  Each claim of the specification is settled below; helper
lemmas about the embedded definitions come first. -/

/-- Unfolded form of `_process_rollouts` (the `let` bindings of the
definition are expanded). -/
theorem process_rollouts_def (cfg : Cfg) (S : Int) (rollouts : List Rollout) :
    process_rollouts cfg S rollouts =
      (if rollouts.length < macro_batch_size cfg cfg.batch_size / cfg.rollout then
        ⟨rollouts, none, 0, []⟩
      else if macro_batch_size cfg cfg.batch_size / cfg.rollout ≤
          (rollouts.drop (stale_scan S cfg.max_policy_lag rollouts).2).length then
        ⟨(rollouts.drop (stale_scan S cfg.max_policy_lag rollouts).2).drop
            (macro_batch_size cfg cfg.batch_size / cfg.rollout),
          some ((rollouts.drop (stale_scan S cfg.max_policy_lag rollouts).2).take
            (macro_batch_size cfg cfg.batch_size / cfg.rollout)),
          (stale_scan S cfg.max_policy_lag rollouts).2,
          (stale_scan S cfg.max_policy_lag rollouts).1 ++
            prepare_events
              ((rollouts.drop (stale_scan S cfg.max_policy_lag rollouts).2).take
                (macro_batch_size cfg cfg.batch_size / cfg.rollout))⟩
      else
        ⟨rollouts.drop (stale_scan S cfg.max_policy_lag rollouts).2, none,
          (stale_scan S cfg.max_policy_lag rollouts).2,
          (stale_scan S cfg.max_policy_lag rollouts).1⟩) := rfl

/-- Staleness scan discards nothing when every pending rollout is fresh. -/
theorem stale_scan_fresh {S maxLag : Int} {rollouts : List Rollout}
    (h : ∀ r ∈ rollouts, S - r.minVersion < maxLag) :
    (stale_scan S maxLag rollouts).2 = 0 := by
  cases rollouts with
  | nil => rfl
  | cons r rs =>
      have hr := h r (by simp)
      simp [stale_scan, not_le.mpr hr]

/-- C3: with `num_batches_per_iteration * batch_size = 256` and rollout
length 64 a macro-batch is exactly 4 rollouts: while fewer than 4 fresh
rollouts are pending `_process_rollouts` produces no macro-batch and returns
the pending list unchanged; once at least 4 are pending it produces exactly
one macro-batch of the 4 oldest rollouts whose sample count is 256. -/
theorem macro_batch_of_four_rollouts (cfg : Cfg) (S : Int)
    (rollouts : List Rollout)
    (hmb : cfg.num_batches_per_iteration * cfg.batch_size = 256)
    (hroll : cfg.rollout = 64)
    (hfresh : ∀ r ∈ rollouts, S - r.minVersion < cfg.max_policy_lag)
    (hlen : ∀ r ∈ rollouts, r.length = 64) :
    (rollouts.length < 4 →
      process_rollouts cfg S rollouts = ⟨rollouts, none, 0, []⟩) ∧
    (4 ≤ rollouts.length →
      (process_rollouts cfg S rollouts).batch = some (rollouts.take 4) ∧
      (process_rollouts cfg S rollouts).pending = rollouts.drop 4 ∧
      sample_count (rollouts.take 4) = 256) := by
  have hk : macro_batch_size cfg cfg.batch_size / cfg.rollout = 4 := by
    unfold macro_batch_size
    rw [hmb, hroll]
  constructor
  · intro hlt
    rw [process_rollouts_def, hk, if_pos hlt]
  · intro hge
    have hd : (stale_scan S cfg.max_policy_lag rollouts).2 = 0 :=
      stale_scan_fresh hfresh
    have hbody :
        (process_rollouts cfg S rollouts).batch = some (rollouts.take 4) ∧
        (process_rollouts cfg S rollouts).pending = rollouts.drop 4 := by
      rw [process_rollouts_def, hk, if_neg (not_lt.mpr hge), hd]
      simp only [List.drop_zero]
      rw [if_pos hge]
      exact ⟨rfl, rfl⟩
    refine ⟨hbody.1, hbody.2, ?_⟩
    have htl : (rollouts.take 4).length = 4 := by
      rw [List.length_take]
      omega
    have hmap : (rollouts.take 4).map Rollout.length =
        List.replicate ((rollouts.take 4).map Rollout.length).length 64 := by
      apply List.eq_replicate_length.mpr
      intro b hb
      rcases List.mem_map.mp hb with ⟨r, hr, hrb⟩
      exact hrb ▸ hlen r (List.mem_of_mem_take hr)
    unfold sample_count
    rw [hmap, List.sum_replicate, List.length_map, htl]
    rfl

/-- C3 witness: a concrete run with 3 pending rollouts (no batch) and with 4
pending rollouts (one macro-batch of 256 samples). -/
theorem macro_batch_of_four_rollouts_witness :
    (process_rollouts ⟨256, 1, 64, 32, 100, -1, 3⟩ 0
        [⟨0, 0, 64, 64⟩, ⟨1, 0, 64, 64⟩, ⟨2, 0, 64, 64⟩] =
      ⟨[⟨0, 0, 64, 64⟩, ⟨1, 0, 64, 64⟩, ⟨2, 0, 64, 64⟩], none, 0, []⟩) ∧
    ((process_rollouts ⟨256, 1, 64, 32, 100, -1, 3⟩ 0
        [⟨0, 0, 64, 64⟩, ⟨1, 0, 64, 64⟩, ⟨2, 0, 64, 64⟩, ⟨3, 0, 64, 64⟩]).batch =
      some [⟨0, 0, 64, 64⟩, ⟨1, 0, 64, 64⟩, ⟨2, 0, 64, 64⟩, ⟨3, 0, 64, 64⟩]) := by
  constructor
  · exact (macro_batch_of_four_rollouts _ 0 _ (by decide) (by decide)
      (by decide) (by decide)).1 (by decide)
  · have h := (macro_batch_of_four_rollouts ⟨256, 1, 64, 32, 100, -1, 3⟩ 0
      [⟨0, 0, 64, 64⟩, ⟨1, 0, 64, 64⟩, ⟨2, 0, 64, 64⟩, ⟨3, 0, 64, 64⟩]
      (by decide) (by decide) (by decide) (by decide)).2 (by decide)
    exact h.1

/-- C5 counterexample: with the default limit and one minibatch per iteration
the threshold is 3, and with exactly 3 pending minibatches-worth of rollouts
the code pauses collection although the committed count does not strictly
exceed the threshold. -/
theorem accumulated_at_threshold_pauses :
    accumulated_too_much_experience bpCfg false 3 0 = true ∧
    ¬ ((max_minibatches_on_learner bpCfg : ℚ) <
        committed_minibatches bpCfg false 3 0) := by
  constructor
  · simp only [accumulated_too_much_experience, bpCfg, decide_eq_true_iff]
    norm_num
  · simp only [max_minibatches_on_learner, committed_minibatches, bpCfg]
    norm_num

/-- C5 amended: the learner pauses exactly when the committed-minibatch count
is at or above (not strictly above) the threshold; the default threshold
(`num_minibatches_to_accumulate = -1`) is twice the minibatches per iteration
plus one extra iteration's worth; and the pause flag simply tracks the
per-tick condition, so it persists while the count stays at or above the
threshold and is cleared exactly when it drops back under it. -/
theorem backpressure_threshold_characterization :
    (∀ (cfg : Cfg) (isTraining : Bool) (numRollouts qsize : Nat),
        accumulated_too_much_experience cfg isTraining numRollouts qsize = true ↔
          (max_minibatches_on_learner cfg : ℚ) ≤
            committed_minibatches cfg isTraining numRollouts qsize) ∧
    (∀ cfg : Cfg, cfg.num_minibatches_to_accumulate = -1 →
        max_minibatches_on_learner cfg =
          2 * cfg.num_batches_per_iteration + cfg.num_batches_per_iteration) ∧
    (∀ (st : BpState) (tooMuch : Bool), (bp_tick st tooMuch).stop = tooMuch) := by
  refine ⟨?_, ?_, ?_⟩
  · intro cfg b n q
    unfold accumulated_too_much_experience committed_minibatches
      max_minibatches_on_learner
    cases b <;> simp [decide_eq_true_iff] <;> ring_nf
  · intro cfg h
    unfold max_minibatches_on_learner
    rw [if_pos h]
  · intro st t
    cases t <;> rcases hst : st.stop <;>
      simp [bp_tick, hst] <;> split <;> rfl

/-- C5 witness: the amended characterization evaluated at the boundary
configuration. -/
theorem backpressure_threshold_characterization_witness :
    (accumulated_too_much_experience bpCfg false 3 0 = true ↔
      (max_minibatches_on_learner bpCfg : ℚ) ≤
        committed_minibatches bpCfg false 3 0) ∧
    (max_minibatches_on_learner bpCfg =
      2 * bpCfg.num_batches_per_iteration + bpCfg.num_batches_per_iteration) ∧
    (bp_tick bp0 true).stop = true :=
  ⟨backpressure_threshold_characterization.1 bpCfg false 3 0,
   backpressure_threshold_characterization.2.1 bpCfg rfl,
   backpressure_threshold_characterization.2.2 bp0 true⟩

set_option maxRecDepth 20000 in
/-- C6 counterexample: after 50 consecutive over-threshold ticks a single
under-threshold tick already clears the pause flag and issues the
`notify_all` broadcast—there is no 50-tick debounce on the transition. -/
theorem bp_no_debounce :
    (bp_run bp0 (List.replicate 50 true ++ [false])).stop = false ∧
    (bp_run bp0 (List.replicate 50 true ++ [false])).notifications = 1 := by
  decide

/-- C6 amended: the stop flag tracks the most recent tick's over-threshold
condition—set on the first over-threshold tick and cleared on the first
under-threshold tick, with no debounce—and a `notify_all` broadcast is issued
on every pause-to-resume transition; the 50-counters only throttle log
messages. -/
theorem bp_tick_characterization :
    (∀ (st : BpState) (t : Bool),
        (bp_tick st t).stop = t ∧
        (bp_tick st t).notifications =
          st.notifications + (if st.stop = true ∧ t = false then 1 else 0)) ∧
    (∀ (st : BpState) (ts : List Bool),
        (bp_run st ts).stop = ts.getLastD st.stop) := by
  have hstop : ∀ (st : BpState) (t : Bool), (bp_tick st t).stop = t := by
    intro st t
    cases t <;> rcases hst : st.stop <;>
      simp [bp_tick, hst] <;> split <;> rfl
  constructor
  · intro st t
    refine ⟨hstop st t, ?_⟩
    cases t <;> rcases hst : st.stop <;>
      simp [bp_tick, hst] <;> split <;> rfl
  · intro st ts
    induction ts generalizing st with
    | nil => rfl
    | cons t ts ih =>
        show (bp_run (bp_tick st t) ts).stop = (t :: ts).getLastD st.stop
        rw [ih (bp_tick st t), hstop st t, List.getLastD_cons]

/-- C6 witness: the amended characterization at a pause tick followed by a
resume tick. -/
theorem bp_tick_characterization_witness :
    ((bp_tick bp0 true).stop = true ∧
      (bp_tick bp0 true).notifications =
        bp0.notifications + (if bp0.stop = true ∧ true = false then 1 else 0)) ∧
    (bp_run bp0 [true, false]).stop = [true, false].getLastD bp0.stop :=
  ⟨bp_tick_characterization.1 bp0 true,
   bp_tick_characterization.2 bp0 [true, false]⟩

/-- C8: a successful `load_from_checkpoint` always restores the model and
optimizer state from the checkpoint; it restores the `train_step` and
`env_steps` progress counters exactly when the checkpoint belongs to the
learner's own policy, and leaves them untouched for a PBT cross-policy
load. -/
theorem load_from_checkpoint_progress {M O : Type} (selfId policyId : Nat)
    (dir : List FsPath)
    (readCk : List Nat → Nat → Option (CheckpointDict M O))
    (s : LearnerState M O) (cp : CheckpointDict M O)
    (hload : load_checkpoint (get_checkpoints dir) readCk = some cp) :
    (load_from_checkpoint selfId policyId dir readCk s).model = cp.model ∧
    (load_from_checkpoint selfId policyId dir readCk s).optimizer =
      cp.optimizer ∧
    (policyId ≠ selfId →
      (load_from_checkpoint selfId policyId dir readCk s).train_step =
          s.train_step ∧
        (load_from_checkpoint selfId policyId dir readCk s).env_steps =
          s.env_steps) ∧
    (policyId = selfId →
      (load_from_checkpoint selfId policyId dir readCk s).train_step =
          cp.train_step ∧
        (load_from_checkpoint selfId policyId dir readCk s).env_steps =
          cp.env_steps) := by
  unfold load_from_checkpoint
  rw [hload]
  by_cases h : policyId = selfId <;>
    simp [load_state, h]

/-- Rewriting lemma for a stale head of the pending queue. -/
theorem stale_scan_cons_stale {S maxLag : Int} {a : Rollout}
    {rs : List Rollout} (h : maxLag ≤ S - a.minVersion) :
    stale_scan S maxLag (a :: rs) =
      (.read a.slot :: .free a.slot :: (stale_scan S maxLag rs).1,
        (stale_scan S maxLag rs).2 + 1) := by
  simp [stale_scan, h]

/-- Rewriting lemma for a fresh head of the pending queue. -/
theorem stale_scan_cons_fresh {S maxLag : Int} {a : Rollout}
    {rs : List Rollout} (h : ¬ maxLag ≤ S - a.minVersion) :
    stale_scan S maxLag (a :: rs) = ([.read a.slot], 0) := by
  simp [stale_scan, h]

/-- Under a queue with non-decreasing minimum policy versions, every rollout
surviving the staleness scan is strictly within the lag bound. -/
theorem stale_scan_drop_fresh {S maxLag : Int} :
    ∀ {rollouts : List Rollout},
      List.Pairwise (fun a b => a.minVersion ≤ b.minVersion) rollouts →
      ∀ r ∈ rollouts.drop (stale_scan S maxLag rollouts).2,
        S - r.minVersion < maxLag := by
  intro rollouts
  induction rollouts with
  | nil => intro _ r hr; simp at hr
  | cons a rs ih =>
      intro hp r hr
      rcases List.pairwise_cons.mp hp with ⟨ha, hrs⟩
      by_cases hstale : maxLag ≤ S - a.minVersion
      · rw [stale_scan_cons_stale hstale] at hr
        simp only [List.drop_succ_cons] at hr
        exact ih hrs r hr
      · rw [stale_scan_cons_fresh hstale, List.drop_zero] at hr
        rcases List.mem_cons.mp hr with rfl | hmem
        · exact not_le.mp hstale
        · have h1 := ha r hmem
          have h2 := not_le.mp hstale
          omega

/-- Every rollout discarded by the staleness scan has its slot freed during
the scan. -/
theorem stale_scan_free_events {S maxLag : Int} :
    ∀ (rollouts : List Rollout),
      ∀ r ∈ rollouts.take (stale_scan S maxLag rollouts).2,
        Ev.free r.slot ∈ (stale_scan S maxLag rollouts).1 := by
  intro rollouts
  induction rollouts with
  | nil => intro r hr; simp at hr
  | cons a rs ih =>
      intro r hr
      by_cases hstale : maxLag ≤ S - a.minVersion
      · rw [stale_scan_cons_stale hstale] at hr ⊢
        simp only [List.take_succ_cons] at hr
        rcases List.mem_cons.mp hr with rfl | hmem
        · simp
        · have := ih r hmem
          simp [this]
      · rw [stale_scan_cons_fresh hstale] at hr
        simp at hr

/-- C1 counterexample: a stale rollout hiding behind a fresh rollout at the
front of the queue is not discarded by the front-only staleness scan and ends
up inside the returned macro-batch, with a policy lag exceeding the bound. -/
theorem stale_rollout_in_macro_batch :
    (process_rollouts lagCfg 5 [freshRollout, staleRollout]).batch =
      some [freshRollout, staleRollout] ∧
    lagCfg.max_policy_lag < 5 - staleRollout.minVersion := by
  constructor
  · decide
  · decide

/-- C1 amended: on an assembly attempt with enough pending rollouts,
`_process_rollouts` discards exactly the maximal stale front prefix (the
rollouts whose lag is at least `max_policy_lag`, an inclusive bound), freeing
each discarded slot and reporting the discard count; rollouts behind the
first fresh one are not re-checked, so the batch-wide staleness bound holds
whenever the pending queue's minimum policy versions are non-decreasing, and
then every rollout of a returned macro-batch has lag strictly below
`max_policy_lag`. -/
theorem macro_batch_staleness_bound (cfg : Cfg) (S : Int)
    (rollouts : List Rollout)
    (hmono : List.Pairwise (fun a b => a.minVersion ≤ b.minVersion) rollouts) :
    (∀ bs, (process_rollouts cfg S rollouts).batch = some bs →
        ∀ r ∈ bs, S - r.minVersion < cfg.max_policy_lag) ∧
    (¬ rollouts.length < macro_batch_size cfg cfg.batch_size / cfg.rollout →
        (process_rollouts cfg S rollouts).discarded =
          (stale_scan S cfg.max_policy_lag rollouts).2 ∧
        ∀ r ∈ rollouts.take (stale_scan S cfg.max_policy_lag rollouts).2,
          Ev.free r.slot ∈ (process_rollouts cfg S rollouts).events) := by
  rw [process_rollouts_def]
  by_cases hlt : rollouts.length <
      macro_batch_size cfg cfg.batch_size / cfg.rollout
  · rw [if_pos hlt]
    constructor
    · intro bs hbs
      simp at hbs
    · intro h
      exact absurd hlt h
  · rw [if_neg hlt]
    by_cases henough : macro_batch_size cfg cfg.batch_size / cfg.rollout ≤
        (rollouts.drop (stale_scan S cfg.max_policy_lag rollouts).2).length
    · rw [if_pos henough]
      constructor
      · intro bs hbs r hr
        simp only [Option.some.injEq] at hbs
        subst hbs
        exact stale_scan_drop_fresh hmono r (List.mem_of_mem_take hr)
      · intro _
        refine ⟨rfl, ?_⟩
        intro r hr
        exact List.mem_append_left _ (stale_scan_free_events rollouts r hr)
    · rw [if_neg henough]
      constructor
      · intro bs hbs
        simp at hbs
      · intro _
        exact ⟨rfl, fun r hr => stale_scan_free_events rollouts r hr⟩

/-- C1 witness: a queue with a stale rollout at the front followed by a fresh
one; the stale front rollout is discarded, its slot freed and counted. -/
theorem macro_batch_staleness_bound_witness :
    (process_rollouts lagCfg 5 [staleRollout, freshRollout]).discarded =
      (stale_scan 5 lagCfg.max_policy_lag [staleRollout, freshRollout]).2 ∧
    ∀ r ∈ [staleRollout, freshRollout].take
        (stale_scan 5 lagCfg.max_policy_lag [staleRollout, freshRollout]).2,
      Ev.free r.slot ∈
        (process_rollouts lagCfg 5 [staleRollout, freshRollout]).events :=
  (macro_batch_staleness_bound lagCfg 5 [staleRollout, freshRollout]
    (by decide)).2 (by decide)

/-- Irreflexivity of the filename order. -/
theorem lexLt_irrefl : ∀ a : List Nat, lexLt a a = false
  | [] => rfl
  | _ :: xs => by simp [lexLt, lexLt_irrefl xs]

/-- Asymmetry of the filename order. -/
theorem lexLt_asymm : ∀ (a b : List Nat), lexLt a b = true → lexLt b a = false
  | [], [] => by intro h; simp [lexLt] at h
  | [], _ :: _ => by intro _; rfl
  | _ :: _, [] => by intro h; simp [lexLt] at h
  | x :: xs, y :: ys => by
      intro h
      rcases Nat.lt_trichotomy x y with hlt | heq | hgt
      · simp [lexLt, hlt, Nat.lt_asymm hlt]
      · subst heq
        simp only [lexLt, lt_irrefl, if_false] at h ⊢
        exact lexLt_asymm xs ys h
      · simp [lexLt, hgt, Nat.lt_asymm hgt] at h

/-- Transitivity of the filename order. -/
theorem lexLt_trans : ∀ (a b c : List Nat),
    lexLt a b = true → lexLt b c = true → lexLt a c = true
  | [], [], _ => by intro h _; simp [lexLt] at h
  | [], _ :: _, [] => by intro _ h; simp [lexLt] at h
  | [], _ :: _, _ :: _ => by intro _ _; rfl
  | _ :: _, [], _ => by intro h _; simp [lexLt] at h
  | _ :: _, _ :: _, [] => by intro _ h; simp [lexLt] at h
  | x :: xs, y :: ys, z :: zs => by
      intro hab hbc
      rcases Nat.lt_trichotomy x y with hxy | hxy | hxy
      · rcases Nat.lt_trichotomy y z with hyz | hyz | hyz
        · simp [lexLt, Nat.lt_trans hxy hyz]
        · subst hyz; simp [lexLt, hxy]
        · simp [lexLt, hyz, Nat.lt_asymm hyz] at hbc
      · subst hxy
        rcases Nat.lt_trichotomy x z with hyz | hyz | hyz
        · simp [lexLt, hyz]
        · subst hyz
          simp only [lexLt, lt_irrefl, if_false] at hab hbc ⊢
          exact lexLt_trans xs ys zs hab hbc
        · simp [lexLt, hyz, Nat.lt_asymm hyz] at hbc
      · simp [lexLt, hxy, Nat.lt_asymm hxy] at hab

/-- Trichotomy of the filename order. -/
theorem lexLt_trichotomy : ∀ (a b : List Nat),
    lexLt a b = true ∨ a = b ∨ lexLt b a = true
  | [], [] => Or.inr (Or.inl rfl)
  | [], _ :: _ => Or.inl rfl
  | _ :: _, [] => Or.inr (Or.inr rfl)
  | x :: xs, y :: ys => by
      rcases Nat.lt_trichotomy x y with hlt | heq | hgt
      · exact Or.inl (by simp [lexLt, hlt])
      · subst heq
        rcases lexLt_trichotomy xs ys with h | h | h
        · exact Or.inl (by simp [lexLt, h])
        · exact Or.inr (Or.inl (by rw [h]))
        · exact Or.inr (Or.inr (by simp [lexLt, h]))
      · exact Or.inr (Or.inr (by simp [lexLt, hgt]))

instance : IsTotal (List Nat) LexLe where
  total a b := by
    unfold LexLe
    rcases hab : lexLt b a with _ | _
    · exact Or.inl rfl
    · exact Or.inr (lexLt_asymm b a hab)

instance : IsTrans (List Nat) LexLe where
  trans a b c hab hbc := by
    unfold LexLe at hab hbc ⊢
    rcases hca : lexLt c a with _ | _
    · rfl
    · rcases lexLt_trichotomy a b with h | h | h
      · have := lexLt_trans c a b hca h
        rw [this] at hbc
        exact hbc
      · subst h
        rw [hca] at hbc
        exact hbc
      · rw [h] at hab
        exact hab

/-- The last element of a list, when it exists, is a member. -/
theorem getLast?_mem : ∀ (l : List α) (a : α), l.getLast? = some a → a ∈ l
  | [], a => by intro h; simp at h
  | [x], a => by intro h; simp at h; simp [h]
  | x :: y :: l, a => by
      intro h
      rw [List.getLast?_cons_cons] at h
      exact List.mem_cons_of_mem x (getLast?_mem (y :: l) a h)

/-- In a `LexLe`-sorted list the last element is an upper bound. -/
theorem sorted_getLast?_max : ∀ {l : List (List Nat)} {latest : List Nat},
    l.Sorted LexLe → l.getLast? = some latest → ∀ a ∈ l, LexLe a latest := by
  intro l
  induction l with
  | nil => intro latest _ h; simp at h
  | cons x xs ih =>
      intro latest hs hl a ha
      rcases List.sorted_cons.mp hs with ⟨hx, hxs⟩
      cases xs with
      | nil =>
          simp at hl
          rcases List.mem_singleton.mp ha with rfl
          rw [← hl]
          exact lexLt_irrefl a
      | cons y ys =>
          rw [List.getLast?_cons_cons] at hl
          rcases List.mem_cons.mp ha with rfl | hmem
          · have hlat : latest ∈ y :: ys := getLast?_mem _ _ hl
            exact hx latest hlat
          · exact ih hxs hl a hmem

/-- C9: checkpoint loading fails soft.  With no checkpoint files
`load_checkpoint` yields nothing; otherwise the file consulted is the
lexicographically last checkpoint (an upper bound of all checkpoint names),
deserialization is attempted at most 3 times, and if the first 3 attempts all
fail the loader yields nothing; in both `none` cases `load_from_checkpoint`
leaves the freshly initialized learner state untouched rather than raising. -/
theorem load_checkpoint_fail_soft {M O : Type} (selfId policyId : Nat)
    (dir : List FsPath)
    (readCk : List Nat → Nat → Option (CheckpointDict M O))
    (s : LearnerState M O) :
    (checkpoint_names dir = [] →
      load_checkpoint (get_checkpoints dir) readCk = none ∧
      load_from_checkpoint selfId policyId dir readCk s = s) ∧
    (∀ latest, (get_checkpoints dir).getLast? = some latest →
      (∀ n ∈ checkpoint_names dir, LexLe n latest) ∧
      ((∀ i < 3, readCk latest i = none) →
        load_checkpoint (get_checkpoints dir) readCk = none ∧
        load_from_checkpoint selfId policyId dir readCk s = s)) := by
  constructor
  · intro hempty
    have hcks : get_checkpoints dir = [] := by
      unfold get_checkpoints sortedLex
      rw [hempty]
      rfl
    have hnone : load_checkpoint (get_checkpoints dir) readCk = none := by
      unfold load_checkpoint
      rw [hcks]
      rfl
    refine ⟨hnone, ?_⟩
    unfold load_from_checkpoint
    rw [hnone]
  · intro latest hlast
    constructor
    · intro n hn
      have hsorted : (get_checkpoints dir).Sorted LexLe :=
        List.sorted_insertionSort LexLe (checkpoint_names dir)
      have hmem : n ∈ get_checkpoints dir := by
        unfold get_checkpoints sortedLex
        exact (List.perm_insertionSort LexLe (checkpoint_names dir)).mem_iff.mpr hn
      exact sorted_getLast?_max hsorted hlast n hmem
    · intro hfail
      have h0 := hfail 0 (by omega)
      have h1 := hfail 1 (by omega)
      have h2 := hfail 2 (by omega)
      have hnone : load_checkpoint (get_checkpoints dir) readCk = none := by
        unfold load_checkpoint
        rw [hlast]
        simp [try_load, h0, h1, h2]
      refine ⟨hnone, ?_⟩
      unfold load_from_checkpoint
      rw [hnone]

/-- C9 witness: a directory with checkpoints at steps 2 and 10; the loader
consults the step-10 file (lexicographically last) and soft-fails to the
initial state when every read attempt raises. -/
theorem load_checkpoint_fail_soft_witness :
    (∀ n ∈ checkpoint_names ckDir9, LexLe n (checkpoint_name 10 7)) ∧
    load_checkpoint (get_checkpoints ckDir9)
      (fun (_ : List Nat) (_ : Nat) => (none : Option (CheckpointDict Nat Nat)))
      = none ∧
    load_from_checkpoint 0 0 ckDir9
      (fun (_ : List Nat) (_ : Nat) => (none : Option (CheckpointDict Nat Nat)))
      (⟨1, 2, 3, 4⟩ : LearnerState Nat Nat) = ⟨1, 2, 3, 4⟩ := by
  have h := (load_checkpoint_fail_soft 0 0 ckDir9
    (fun _ _ => (none : Option (CheckpointDict Nat Nat)))
    (⟨1, 2, 3, 4⟩ : LearnerState Nat Nat)).2 (checkpoint_name 10 7) (by rfl)
  exact ⟨h.1, (h.2 (fun i _ => rfl)).1, (h.2 (fun i _ => rfl)).2⟩

/-- C8 witness: a cross-policy load (policy 1 into learner 0) restores model
and optimizer but keeps the local progress counters. -/
theorem load_from_checkpoint_progress_witness :
    (load_from_checkpoint 0 1 [[checkpoint_name 1 2]]
        (fun _ _ => some (⟨5, 6, 7, 8⟩ : CheckpointDict Nat Nat))
        ⟨1, 2, 3, 4⟩).model = 7 ∧
    (load_from_checkpoint 0 1 [[checkpoint_name 1 2]]
        (fun _ _ => some (⟨5, 6, 7, 8⟩ : CheckpointDict Nat Nat))
        ⟨1, 2, 3, 4⟩).train_step = 1 := by
  have h := load_from_checkpoint_progress 0 1 [[checkpoint_name 1 2]]
    (fun _ _ => some (⟨5, 6, 7, 8⟩ : CheckpointDict Nat Nat))
    ⟨1, 2, 3, 4⟩ ⟨5, 6, 7, 8⟩ (by rfl)
  exact ⟨h.1, (h.2.2.1 (by decide)).1⟩

/-- One-step unfolding of the value-target component of the V-trace
recursion (`let`s expanded). -/
theorem vtrace_go_fst_cons (g rhoHat cHat b r d v p : ℚ) (rs ds vs ps : List ℚ) :
    (vtrace_go g rhoHat cHat b (r :: rs) (d :: ds) (v :: vs) (p :: ps)).1 =
      (v + min rhoHat p * (r + g * (1 - d) * vs.headD b - v) +
          g * (1 - d) * min cHat p *
            ((vtrace_go g rhoHat cHat b rs ds vs ps).1.headD b - vs.headD b)) ::
        (vtrace_go g rhoHat cHat b rs ds vs ps).1 := rfl

/-- One-step unfolding of the advantage component of the V-trace recursion
(`let`s expanded). -/
theorem vtrace_go_snd_cons (g rhoHat cHat b r d v p : ℚ) (rs ds vs ps : List ℚ) :
    (vtrace_go g rhoHat cHat b (r :: rs) (d :: ds) (v :: vs) (p :: ps)).2 =
      (min rhoHat p * (r + g * (1 - d) *
          ((vtrace_go g rhoHat cHat b rs ds vs ps).1.headD b) - v)) ::
        (vtrace_go g rhoHat cHat b rs ds vs ps).2 := rfl

/-- One-step unfolding of the GAE recursion (`let`s expanded). -/
theorem gae_adv_cons (g lam r d v v2 : ℚ) (rs ds vs : List ℚ) :
    gae_adv g lam (r :: rs) (d :: ds) (v :: v2 :: vs) =
      ((r + g * (1 - d) * v2 - v) +
          g * lam * (1 - d) * ((gae_adv g lam rs ds (v2 :: vs)).headD 0)) ::
        gae_adv g lam rs ds (v2 :: vs) := rfl

/-- Head identity of the V-trace recursion for on-policy ratios: the first
value target is the first value plus the first advantage (with the bootstrap
serving for the empty case). -/
theorem vtrace_go_head_split (g rhoHat cHat b : ℚ)
    (hrho : 1 ≤ rhoHat) (hc : 1 ≤ cHat) :
    ∀ (rs ds vs ps : List ℚ), ds.length = rs.length → vs.length = rs.length →
      ps.length = rs.length → (∀ x ∈ ps, x = 1) →
      (vtrace_go g rhoHat cHat b rs ds vs ps).1.headD b =
        (vs ++ [b]).headD b +
          (vtrace_go g rhoHat cHat b rs ds vs ps).2.headD 0 := by
  intro rs ds vs ps hds hvs hps hone
  match rs, ds, vs, ps with
  | [], ds, vs, ps =>
      have hvs0 : vs = [] := List.length_eq_zero.mp (by simpa using hvs)
      subst hvs0
      simp [vtrace_go]
  | r :: rs', [], vs, ps => simp at hds
  | r :: rs', d :: ds', [], ps => simp at hvs
  | r :: rs', d :: ds', v :: vs', [] => simp at hps
  | r :: rs', d :: ds', v :: vs', p :: ps' =>
      have hp1 : p = 1 := hone p (by simp)
      rw [vtrace_go_fst_cons, vtrace_go_snd_cons, hp1,
        min_eq_right hrho, min_eq_right hc]
      simp only [List.headD_cons, List.cons_append]
      ring

/-- Core equivalence behind C10: with on-policy importance ratios
(identically 1, so truncation thresholds of at least 1 have no effect) and
`gae_lambda = 1`, the V-trace backward recursion returns exactly the GAE
advantages, and its value targets are the values plus those advantages. -/
theorem vtrace_go_eq_gae (g rhoHat cHat b : ℚ)
    (hrho : 1 ≤ rhoHat) (hc : 1 ≤ cHat) :
    ∀ (rs ds vs ps : List ℚ), ds.length = rs.length → vs.length = rs.length →
      ps.length = rs.length → (∀ x ∈ ps, x = 1) →
      (vtrace_go g rhoHat cHat b rs ds vs ps).2 =
        gae_adv g 1 rs ds (vs ++ [b]) ∧
      (vtrace_go g rhoHat cHat b rs ds vs ps).1 =
        List.zipWith (· + ·) vs (vtrace_go g rhoHat cHat b rs ds vs ps).2 := by
  intro rs
  induction rs with
  | nil =>
      intro ds vs ps hds hvs hps _
      have hds0 : ds = [] := List.length_eq_zero.mp (by simpa using hds)
      have hvs0 : vs = [] := List.length_eq_zero.mp (by simpa using hvs)
      have hps0 : ps = [] := List.length_eq_zero.mp (by simpa using hps)
      subst hds0; subst hvs0; subst hps0
      exact ⟨rfl, rfl⟩
  | cons r rs' ih =>
      intro ds vs ps hds hvs hps hone
      match ds, vs, ps with
      | d :: ds', v :: vs', p :: ps' =>
        have hds' : ds'.length = rs'.length := by simpa using hds
        have hvs' : vs'.length = rs'.length := by simpa using hvs
        have hps' : ps'.length = rs'.length := by simpa using hps
        have hp1 : p = 1 := hone p (by simp)
        have hone' : ∀ x ∈ ps', x = 1 := fun x hx => hone x (by simp [hx])
        have hrho1 : min rhoHat p = 1 := by rw [hp1]; exact min_eq_right hrho
        have hc1 : min cHat p = 1 := by rw [hp1]; exact min_eq_right hc
        obtain ⟨ihAdv, ihVs⟩ := ih ds' vs' ps' hds' hvs' hps' hone'
        have hkey := vtrace_go_head_split g rhoHat cHat b hrho hc
          rs' ds' vs' ps' hds' hvs' hps' hone'
        constructor
        · rw [vtrace_go_snd_cons, List.cons_append]
          cases hv2 : vs' ++ [b] with
          | nil => exact absurd hv2 (by simp)
          | cons v2 vtl =>
              rw [gae_adv_cons, ← hv2, ← ihAdv]
              simp only [List.cons.injEq]
              refine ⟨?_, trivial⟩
              rw [hrho1, hkey, hv2]
              simp only [List.headD_cons]
              ring
        · rw [vtrace_go_fst_cons, vtrace_go_snd_cons, List.zipWith_cons_cons]
          simp only [List.cons.injEq]
          refine ⟨?_, ihVs⟩
          rw [hrho1, hc1]
          ring

/-- Concrete evaluation of the V-trace advantages on an off-policy
trajectory with importance ratios 2. -/
theorem vtrace_counter_eval :
    vtrace_adv (1/2) 100 100 [0, 0] [0, 0] [1, 1] [2, 2] = [-1, 0] := by
  unfold vtrace_adv
  norm_num
  rw [vtrace_go_snd_cons, vtrace_go_snd_cons, vtrace_go_fst_cons]
  norm_num [vtrace_go, min_def]

/-- Concrete evaluation of the GAE path on the same trajectory with
`gae_lambda = 1/2`. -/
theorem gae_counter_eval :
    calculate_gae_path (1/2) (1/2) [0, 0] [0, 0] [1, 1] = [-(1/2), 0] := by
  unfold calculate_gae_path
  norm_num
  rw [gae_adv_cons, gae_adv_cons]
  norm_num [gae_adv]

/-- C10 counterexample: with importance ratios different from 1 (entirely
untruncated by thresholds of 100, well above the upstream ratio clamp of 20)
and `gae_lambda` different from 1, the V-trace advantages differ from the GAE
path on the same rewards, dones and values by 1/2—far beyond any
floating-point tolerance. -/
theorem vtrace_gae_differ :
    vtrace_adv (1/2) 100 100 [0, 0] [0, 0] [1, 1] [2, 2] ≠
      calculate_gae_path (1/2) (1/2) [0, 0] [0, 0] [1, 1] := by
  rw [vtrace_counter_eval, gae_counter_eval]
  intro h
  injection h with h1 _
  norm_num at h1

/-- C10 amended: given identical reward, done and value sequences, with
untruncated importance weights (truncation thresholds at least 1, so that for
on-policy data no clamping takes effect), importance ratios identically 1 and
`gae_lambda = 1`, the V-trace backward recursion over the recurrence
window—including its bootstrap pseudo-next-value
`(lastValue - lastReward)/gamma`—produces advantages exactly equal to the GAE
path computed by `_calculate_gae` with the same `gamma`. -/
theorem vtrace_eq_gae_on_policy (g rhoHat cHat : ℚ) (rs ds vs ps : List ℚ)
    (hrho : 1 ≤ rhoHat) (hc : 1 ≤ cHat)
    (hds : ds.length = rs.length) (hvs : vs.length = rs.length)
    (hps : ps.length = rs.length) (hone : ∀ x ∈ ps, x = 1) :
    vtrace_adv g rhoHat cHat rs ds vs ps = calculate_gae_path g 1 rs ds vs := by
  unfold vtrace_adv calculate_gae_path
  exact (vtrace_go_eq_gae g rhoHat cHat _ hrho hc rs ds vs ps
    hds hvs hps hone).1

/-- Unfolded form of `_get_minibatches`. -/
theorem get_minibatches_def (cfg : Cfg) (batchSize experienceSize : Nat)
    (perm : List Nat) :
    get_minibatches cfg batchSize experienceSize perm =
      if cfg.num_batches_per_iteration = 1 then [none]
      else (split_parts (experienceSize / batchSize)
        (expand_windows cfg.recurrence perm)).map some := rfl

/-- Expansion distributes over list append. -/
theorem expand_windows_append (rec : Nat) (a b : List Nat) :
    expand_windows rec (a ++ b) =
      expand_windows rec a ++ expand_windows rec b := by
  unfold expand_windows
  rw [List.map_append, List.flatten_append]

/-- Expansion of a cons. -/
theorem expand_windows_cons (rec w : Nat) (l : List Nat) :
    expand_windows rec (w :: l) =
      window_indices rec w ++ expand_windows rec l := rfl

/-- A window holds exactly `recurrence` indices. -/
theorem window_indices_length (rec i : Nat) :
    (window_indices rec i).length = rec := by
  simp [window_indices]

/-- Expanding `k` windows yields `recurrence * k` indices. -/
theorem expand_windows_length (rec : Nat) :
    ∀ l : List Nat, (expand_windows rec l).length = rec * l.length
  | [] => by simp [expand_windows]
  | w :: l => by
      rw [expand_windows_cons, List.length_append, window_indices_length,
        expand_windows_length rec l, List.length_cons]
      ring

/-- Expansion commutes with `take` at window granularity. -/
theorem expand_windows_take (rec : Nat) :
    ∀ (m : Nat) (l : List Nat),
      expand_windows rec (l.take m) = (expand_windows rec l).take (m * rec) := by
  intro m
  induction m with
  | zero => intro l; simp [expand_windows]
  | succ m ih =>
      intro l
      cases l with
      | nil => simp [expand_windows]
      | cons w l' =>
          have hmul : (m + 1) * rec = m * rec + rec := Nat.succ_mul m rec
          rw [List.take_succ_cons, expand_windows_cons, expand_windows_cons,
            List.take_append_eq_append_take, window_indices_length, hmul,
            Nat.add_sub_cancel, ih l']
          congr 1
          exact (List.take_of_length_le
            (by rw [window_indices_length]; omega)).symm

/-- Expansion commutes with `drop` at window granularity. -/
theorem expand_windows_drop (rec : Nat) :
    ∀ (m : Nat) (l : List Nat),
      expand_windows rec (l.drop m) = (expand_windows rec l).drop (m * rec) := by
  intro m
  induction m with
  | zero => intro l; simp
  | succ m ih =>
      intro l
      cases l with
      | nil => simp [expand_windows]
      | cons w l' =>
          have hmul : (m + 1) * rec = m * rec + rec := Nat.succ_mul m rec
          have hnil : (window_indices rec w).drop (m * rec + rec) = [] :=
            List.drop_eq_nil_of_le (by rw [window_indices_length]; omega)
          rw [List.drop_succ_cons, expand_windows_cons,
            List.drop_append_eq_append_drop, window_indices_length, hmul,
            Nat.add_sub_cancel, ih l', hnil, List.nil_append]

/-- `chunks_go` always produces the requested number of sections. -/
theorem chunks_go_length (c : Nat) :
    ∀ (n : Nat) (l : List α), (chunks_go c n l).length = n
  | 0, _ => rfl
  | n + 1, l => by
      rw [show chunks_go c (n + 1) l = l.take c :: chunks_go c n (l.drop c)
          from rfl,
        List.length_cons, chunks_go_length c n (l.drop c)]

/-- Splitting the expanded indices into sections of `m * recurrence` indices
is the same as splitting the window starts into sections of `m` windows and
expanding each section. -/
theorem chunks_go_expand (rec m : Nat) :
    ∀ (n : Nat) (l : List Nat),
      chunks_go (m * rec) n (expand_windows rec l) =
        (chunks_go m n l).map (expand_windows rec)
  | 0, _ => rfl
  | n + 1, l => by
      rw [show chunks_go (m * rec) (n + 1) (expand_windows rec l) =
          (expand_windows rec l).take (m * rec) ::
            chunks_go (m * rec) n ((expand_windows rec l).drop (m * rec))
          from rfl,
        show chunks_go m (n + 1) l = l.take m :: chunks_go m n (l.drop m)
          from rfl,
        List.map_cons, ← expand_windows_take, ← expand_windows_drop,
        chunks_go_expand rec m n (l.drop m)]

/-- Concatenating the sections recovers the original list when it fits. -/
theorem chunks_go_flatten (c : Nat) :
    ∀ (n : Nat) (l : List α), l.length ≤ n * c →
      (chunks_go c n l).flatten = l
  | 0, l => by
      intro h
      have : l = [] := List.eq_nil_of_length_eq_zero (by omega)
      subst this
      rfl
  | n + 1, l => by
      intro h
      have hmul : (n + 1) * c = n * c + c := Nat.succ_mul n c
      rw [hmul] at h
      rw [show chunks_go c (n + 1) l = l.take c :: chunks_go c n (l.drop c)
          from rfl,
        List.flatten_cons,
        chunks_go_flatten c n (l.drop c)
          (by rw [List.length_drop]; omega),
        List.take_append_drop]

/-- Expansion sends permutations of window starts to permutations of the
expanded indices. -/
theorem expand_windows_perm (rec : Nat) {a b : List Nat} (h : a.Perm b) :
    (expand_windows rec a).Perm (expand_windows rec b) := by
  induction h with
  | nil => exact List.Perm.refl _
  | cons x _ ih =>
      rw [expand_windows_cons, expand_windows_cons]
      exact ih.append_left _
  | swap x y l =>
      rw [expand_windows_cons, expand_windows_cons, expand_windows_cons,
        expand_windows_cons, ← List.append_assoc, ← List.append_assoc]
      exact (List.perm_append_comm.append_right _)
  | trans _ _ ih1 ih2 => exact ih1.trans ih2

/-- Expanding the aligned window starts in order reproduces the full index
range. -/
theorem expand_window_starts (rec : Nat) (hrec : 0 < rec) :
    ∀ n : Nat, expand_windows rec (window_starts (n * rec) rec) =
      List.range (n * rec) := by
  have hws : ∀ n : Nat, window_starts (n * rec) rec =
      (List.range n).map (· * rec) := by
    intro n
    unfold window_starts
    rw [Nat.mul_div_cancel n hrec]
  intro n
  induction n with
  | zero =>
      rw [hws]
      simp [expand_windows]
  | succ n ih =>
      rw [hws, List.range_succ, List.map_append, expand_windows_append,
        ← hws, ih]
      rw [show (n + 1) * rec = n * rec + rec by ring, List.range_add]
      congr 1
      show window_indices rec (n * rec) ++ [] = _
      rw [List.append_nil]
      rfl

/-- Helper: mapping `some` and filtering back with `id` is the identity. -/
theorem filterMap_id_map_some : ∀ l : List α, (l.map some).filterMap id = l
  | [] => rfl
  | x :: xs => by
      rw [List.map_cons, List.filterMap_cons]
      simp [filterMap_id_map_some xs]

/-- C4: with recurrence 32, batch size 1024 and experience size 2048 (and
therefore 2 minibatches per iteration), `_get_minibatches` returns exactly 2
minibatches of 1024 indices each, whose union is exactly `{0, …, 2047}`; each
minibatch is a concatenation of whole aligned 32-index windows (indices
consecutive and increasing inside each window by construction of
`window_indices`), so no window is split across minibatches; the permutation
acts only at window granularity. -/
theorem minibatch_partition (cfg : Cfg) (perm : List Nat)
    (hnb : cfg.num_batches_per_iteration = 2) (hrec : cfg.recurrence = 32)
    (hperm : perm.Perm (window_starts 2048 32)) :
    (get_minibatches cfg 1024 2048 perm).length = 2 ∧
    (∀ mb ∈ get_minibatches cfg 1024 2048 perm, ∃ l, mb = some l ∧
        l.length = 1024 ∧
        ∃ st, (∀ i ∈ st, 32 ∣ i) ∧ l = expand_windows 32 st) ∧
    ((get_minibatches cfg 1024 2048 perm).filterMap id).flatten.Perm
      (List.range 2048) := by
  have hlen : perm.length = 64 := by
    rw [hperm.length_eq]
    simp [window_starts]
  have hne : cfg.num_batches_per_iteration ≠ 1 := by
    rw [hnb]
    decide
  have hexlen : (expand_windows 32 perm).length = 2048 := by
    rw [expand_windows_length, hlen]
  have hsplit : split_parts (2048 / 1024) (expand_windows 32 perm) =
      (chunks_go 32 2 perm).map (expand_windows 32) := by
    unfold split_parts
    rw [hexlen]
    rw [show (2048 : Nat) / 1024 = 2 from rfl,
      show (2048 : Nat) / 2 = 32 * 32 from rfl]
    exact chunks_go_expand 32 32 2 perm
  have hmbs : get_minibatches cfg 1024 2048 perm =
      ((chunks_go 32 2 perm).map (expand_windows 32)).map some := by
    rw [get_minibatches_def, if_neg hne, hrec, hsplit]
  have hstart_dvd : ∀ i ∈ perm, 32 ∣ i := by
    intro i hi
    have : i ∈ window_starts 2048 32 := hperm.mem_iff.mp hi
    unfold window_starts at this
    rcases List.mem_map.mp this with ⟨j, _, rfl⟩
    exact dvd_mul_left 32 j
  refine ⟨?_, ?_, ?_⟩
  · rw [hmbs, List.length_map, List.length_map, chunks_go_length]
  · intro mb hmb
    rw [hmbs] at hmb
    rcases List.mem_map.mp hmb with ⟨l, hl, rfl⟩
    rcases List.mem_map.mp hl with ⟨st, hst, rfl⟩
    have hst' : st = perm.take 32 ∨ st = (perm.drop 32).take 32 := by
      rw [show chunks_go 32 2 perm =
          [perm.take 32, (perm.drop 32).take 32] from rfl] at hst
      simpa using hst
    have hstlen : st.length = 32 := by
      rcases hst' with h | h
      · rw [h, List.length_take]
        omega
      · rw [h, List.length_take, List.length_drop]
        omega
    refine ⟨expand_windows 32 st, rfl, ?_, st, ?_, rfl⟩
    · rw [expand_windows_length, hstlen]
    · intro i hi
      rcases hst' with h | h
      · rw [h] at hi
        exact hstart_dvd i (List.mem_of_mem_take hi)
      · rw [h] at hi
        exact hstart_dvd i (List.mem_of_mem_drop (List.mem_of_mem_take hi))
  · rw [hmbs, filterMap_id_map_some]
    rw [show ((chunks_go 32 2 perm).map (expand_windows 32)) =
        chunks_go (32 * 32) 2 (expand_windows 32 perm)
      from (chunks_go_expand 32 32 2 perm).symm]
    rw [chunks_go_flatten (32 * 32) 2 (expand_windows 32 perm)
      (by rw [hexlen])]
    have h1 : (expand_windows 32 perm).Perm
        (expand_windows 32 (window_starts 2048 32)) :=
      expand_windows_perm 32 hperm
    have h2 : expand_windows 32 (window_starts 2048 32) = List.range 2048 := by
      have := expand_window_starts 32 (by decide) 64
      rw [show (64 : Nat) * 32 = 2048 from rfl] at this
      exact this
    rw [← h2]
    exact h1

/-- C4 witness: the identity permutation of the window starts. -/
theorem minibatch_partition_witness :
    (get_minibatches ⟨1024, 2, 32, 32, 100, -1, 3⟩ 1024 2048
        (window_starts 2048 32)).length = 2 :=
  (minibatch_partition ⟨1024, 2, 32, 32, 100, -1, 3⟩ (window_starts 2048 32)
    rfl rfl (List.Perm.refl _)).1

/-- C10 witness: a concrete on-policy trajectory on which the V-trace and GAE
advantage paths coincide. -/
theorem vtrace_eq_gae_on_policy_witness :
    vtrace_adv (1/2) 100 100 [1, 2] [0, 1] [3, 4] [1, 1] =
      calculate_gae_path (1/2) 1 [1, 2] [0, 1] [3, 4] :=
  vtrace_eq_gae_on_policy (1/2) 100 100 [1, 2] [0, 1] [3, 4] [1, 1]
    (by norm_num) (by norm_num) rfl rfl rfl
    (by
      intro x hx
      rcases List.mem_cons.mp hx with rfl | hx2
      · rfl
      · exact List.mem_singleton.mp hx2 ▸ rfl)

/-- Checking an appended trace splits into checking the prefix and checking
the suffix from the owned set the prefix leaves behind. -/
theorem trace_ok_append : ∀ (e1 e2 : List Ev) (owned : List Nat),
    trace_ok owned (e1 ++ e2) =
      (trace_ok owned e1 && trace_ok (owned_after owned e1) e2)
  | [], e2, owned => by simp [trace_ok, owned_after]
  | .write s :: e1, e2, owned => by
      by_cases h : s ∈ owned <;>
        simp [trace_ok, owned_after, h, trace_ok_append e1 e2]
  | .read s :: e1, e2, owned => by
      by_cases h : s ∈ owned <;>
        simp [trace_ok, owned_after, h, trace_ok_append e1 e2]
  | .free s :: e1, e2, owned => by
      by_cases h : s ∈ owned <;>
        simp [trace_ok, owned_after, h, trace_ok_append e1 e2]

/-- The owned set after an appended trace. -/
theorem owned_after_append : ∀ (e1 e2 : List Ev) (owned : List Nat),
    owned_after owned (e1 ++ e2) = owned_after (owned_after owned e1) e2
  | [], _, _ => rfl
  | .write s :: e1, e2, owned => owned_after_append e1 e2 (s :: owned)
  | .read _ :: e1, e2, owned => owned_after_append e1 e2 owned
  | .free s :: e1, e2, owned => owned_after_append e1 e2 (owned.erase s)

/-- Permuting the owned set changes neither the checker's verdict nor (up to
permutation) the owned set left behind. -/
theorem trace_ok_perm : ∀ (evs : List Ev) {o1 o2 : List Nat}, o1.Perm o2 →
    trace_ok o1 evs = trace_ok o2 evs ∧
      (owned_after o1 evs).Perm (owned_after o2 evs)
  | [], _, _, h => ⟨rfl, h⟩
  | .write s :: evs, o1, o2, h => by
      have hrec := trace_ok_perm evs (h.cons s)
      by_cases hs : s ∈ o1
      · have hs2 : s ∈ o2 := h.mem_iff.mp hs
        exact ⟨by simp [trace_ok, hs, hs2], hrec.2⟩
      · have hs2 : s ∉ o2 := fun hx => hs (h.mem_iff.mpr hx)
        exact ⟨by simp [trace_ok, hs, hs2, hrec.1], hrec.2⟩
  | .read s :: evs, o1, o2, h => by
      have hrec := trace_ok_perm evs h
      by_cases hs : s ∈ o1
      · have hs2 : s ∈ o2 := h.mem_iff.mp hs
        exact ⟨by simp [trace_ok, hs, hs2, hrec.1], hrec.2⟩
      · have hs2 : s ∉ o2 := fun hx => hs (h.mem_iff.mpr hx)
        exact ⟨by simp [trace_ok, hs, hs2], hrec.2⟩
  | .free s :: evs, o1, o2, h => by
      have hrec := trace_ok_perm evs (h.erase s)
      by_cases hs : s ∈ o1
      · have hs2 : s ∈ o2 := h.mem_iff.mp hs
        exact ⟨by simp [trace_ok, hs, hs2, hrec.1], hrec.2⟩
      · have hs2 : s ∉ o2 := fun hx => hs (h.mem_iff.mpr hx)
        exact ⟨by simp [trace_ok, hs, hs2], hrec.2⟩

/-- Producers writing pairwise-distinct slots not currently on the learner
pass the checker and hand those slots over. -/
theorem trace_ok_writes : ∀ (rs : List Rollout) (owned : List Nat),
    (rs.map Rollout.slot).Nodup →
    (∀ s ∈ rs.map Rollout.slot, s ∉ owned) →
    trace_ok owned (rs.map fun r => Ev.write r.slot) = true ∧
    (owned_after owned (rs.map fun r => Ev.write r.slot)).Perm
      (owned ++ rs.map Rollout.slot)
  | [], owned, _, _ => ⟨rfl, by simp [owned_after]⟩
  | a :: rs, owned, hnd, hfresh => by
      have ha : a.slot ∉ owned := hfresh a.slot (by simp)
      have hhead : a.slot ∉ rs.map Rollout.slot :=
        (List.nodup_cons.mp (by simpa using hnd)).1
      have hnd' : (rs.map Rollout.slot).Nodup :=
        (List.nodup_cons.mp (by simpa using hnd)).2
      have hfresh' : ∀ s ∈ rs.map Rollout.slot, s ∉ a.slot :: owned := by
        intro s hs
        simp only [List.mem_cons, not_or]
        refine ⟨?_, hfresh s (by simp [hs])⟩
        intro heq
        exact hhead (heq ▸ hs)
      obtain ⟨h1, h2⟩ := trace_ok_writes rs (a.slot :: owned) hnd' hfresh'
      refine ⟨by simp [trace_ok, ha, h1], ?_⟩
      have hmid : ((a.slot :: owned) ++ rs.map Rollout.slot).Perm
          (owned ++ a.slot :: rs.map Rollout.slot) := List.perm_middle.symm
      simpa using h2.trans hmid

/-- Reads leave the owned set unchanged. -/
theorem owned_after_reads : ∀ (rs : List Rollout) (owned : List Nat),
    owned_after owned (rs.map fun r => Ev.read r.slot) = owned
  | [], _ => rfl
  | _ :: rs, owned => owned_after_reads rs owned

/-- Reading slots the learner owns passes the checker. -/
theorem trace_ok_reads : ∀ (rs : List Rollout) (owned : List Nat),
    (∀ r ∈ rs, r.slot ∈ owned) →
    trace_ok owned (rs.map fun r => Ev.read r.slot) = true
  | [], _, _ => rfl
  | a :: rs, owned, h => by
      have hrec := trace_ok_reads rs owned (fun r hr => h r (by simp [hr]))
      simp [trace_ok, h a (by simp), hrec]

/-- Freeing a list of slots removes them from the owned set. -/
theorem owned_after_frees : ∀ (rs : List Rollout) (owned : List Nat),
    owned_after owned (rs.map fun r => Ev.free r.slot) =
      owned.diff (rs.map Rollout.slot)
  | [], owned => by simp [owned_after]
  | a :: rs, owned => by
      rw [List.map_cons]
      show owned_after (owned.erase a.slot) (rs.map fun r => Ev.free r.slot) = _
      rw [owned_after_frees rs (owned.erase a.slot), List.map_cons,
        List.diff_cons]

/-- Freeing pairwise-distinct owned slots passes the checker. -/
theorem trace_ok_frees : ∀ (rs : List Rollout) (owned : List Nat),
    (rs.map Rollout.slot).Nodup → owned.Nodup →
    (∀ r ∈ rs, r.slot ∈ owned) →
    trace_ok owned (rs.map fun r => Ev.free r.slot) = true
  | [], _, _, _, _ => rfl
  | a :: rs, owned, hnd, hown, h => by
      have hmem : a.slot ∈ owned := h a (by simp)
      have hhead : a.slot ∉ rs.map Rollout.slot :=
        (List.nodup_cons.mp (by simpa using hnd)).1
      have hnd' : (rs.map Rollout.slot).Nodup :=
        (List.nodup_cons.mp (by simpa using hnd)).2
      have h' : ∀ r ∈ rs, r.slot ∈ owned.erase a.slot := by
        intro r hr
        have hne : r.slot ≠ a.slot := by
          intro heq
          exact hhead (heq ▸ List.mem_map_of_mem Rollout.slot hr)
        exact (List.mem_erase_of_ne hne).mpr (h r (by simp [hr]))
      have hrec := trace_ok_frees rs (owned.erase a.slot) hnd'
        (hown.erase a.slot) h'
      simp [trace_ok, hmem, hrec]

/-- The staleness scan reads and frees only slots it owns, and leaves the
learner owning exactly the slots of the surviving rollouts. -/
theorem stale_scan_trace (S maxLag : Int) :
    ∀ (rollouts : List Rollout) (owned : List Nat),
      (rollouts.map Rollout.slot).Nodup →
      owned.Perm (rollouts.map Rollout.slot) →
      trace_ok owned (stale_scan S maxLag rollouts).1 = true ∧
      (owned_after owned (stale_scan S maxLag rollouts).1).Perm
        ((rollouts.drop (stale_scan S maxLag rollouts).2).map Rollout.slot)
  | [], _, _, hperm => ⟨rfl, by simpa using hperm⟩
  | a :: rs, owned, hnd, hperm => by
      have hmem : a.slot ∈ owned := hperm.mem_iff.mpr (by simp)
      by_cases hstale : maxLag ≤ S - a.minVersion
      · rw [stale_scan_cons_stale hstale]
        have hnd' : (rs.map Rollout.slot).Nodup :=
          (List.nodup_cons.mp (by simpa using hnd)).2
        have hperm' : (owned.erase a.slot).Perm (rs.map Rollout.slot) := by
          have h1 := hperm.erase a.slot
          rw [List.map_cons, List.erase_cons_head] at h1
          exact h1
        obtain ⟨h1, h2⟩ := stale_scan_trace S maxLag rs
          (owned.erase a.slot) hnd' hperm'
        constructor
        · simp [trace_ok, hmem, h1]
        · show (owned_after (owned.erase a.slot)
              (stale_scan S maxLag rs).1).Perm _
          rw [List.drop_succ_cons]
          exact h2
      · rw [stale_scan_cons_fresh hstale]
        exact ⟨by simp [trace_ok, hmem], by simpa using hperm⟩

/-- Removing an initial segment of a duplicate-free list by repeated erasure
leaves exactly the rest. -/
theorem diff_append_self : ∀ (t p : List Nat), (t ++ p).Nodup →
    (t ++ p).diff t = p
  | [], p, _ => by simp
  | a :: t, p, h => by
      rw [List.cons_append, List.diff_cons, List.erase_cons_head]
      rw [List.cons_append] at h
      exact diff_append_self t p h.of_cons

/-- The pending list returned by `_process_rollouts` is a sublist of the
input queue. -/
theorem process_rollouts_pending_sublist (cfg : Cfg) (S : Int)
    (rollouts : List Rollout) :
    (process_rollouts cfg S rollouts).pending.Sublist rollouts := by
  rw [process_rollouts_def]
  by_cases hlt : rollouts.length <
      macro_batch_size cfg cfg.batch_size / cfg.rollout
  · rw [if_pos hlt]
  · rw [if_neg hlt]
    by_cases henough : macro_batch_size cfg cfg.batch_size / cfg.rollout ≤
        (rollouts.drop (stale_scan S cfg.max_policy_lag rollouts).2).length
    · rw [if_pos henough]
      exact (List.drop_sublist _ _).trans (List.drop_sublist _ _)
    · rw [if_neg henough]
      exact List.drop_sublist _ _

/-- One `_process_rollouts` call touches only slots the learner owns, frees
slots at most once, and leaves the learner owning exactly the slots of the
rollouts still pending. -/
theorem process_rollouts_trace (cfg : Cfg) (S : Int)
    (rollouts : List Rollout) (owned : List Nat)
    (hnd : (rollouts.map Rollout.slot).Nodup)
    (hperm : owned.Perm (rollouts.map Rollout.slot)) :
    trace_ok owned (process_rollouts cfg S rollouts).events = true ∧
    (owned_after owned (process_rollouts cfg S rollouts).events).Perm
      ((process_rollouts cfg S rollouts).pending.map Rollout.slot) := by
  rw [process_rollouts_def]
  by_cases hlt : rollouts.length <
      macro_batch_size cfg cfg.batch_size / cfg.rollout
  · rw [if_pos hlt]
    exact ⟨rfl, hperm⟩
  · rw [if_neg hlt]
    obtain ⟨hscan1, hscan2⟩ :=
      stale_scan_trace S cfg.max_policy_lag rollouts owned hnd hperm
    by_cases henough : macro_batch_size cfg cfg.batch_size / cfg.rollout ≤
        (rollouts.drop (stale_scan S cfg.max_policy_lag rollouts).2).length
    · rw [if_pos henough]
      have hrestnd : ((rollouts.drop
          (stale_scan S cfg.max_policy_lag rollouts).2).map Rollout.slot).Nodup := by
        rw [List.map_drop]
        exact (List.drop_sublist _ _).nodup hnd
      have htpslots : ((rollouts.drop
            (stale_scan S cfg.max_policy_lag rollouts).2).take
            (macro_batch_size cfg cfg.batch_size / cfg.rollout)).map Rollout.slot =
          ((rollouts.drop (stale_scan S cfg.max_policy_lag rollouts).2).map
            Rollout.slot).take
            (macro_batch_size cfg cfg.batch_size / cfg.rollout) := by
        rw [List.map_take]
      have hpendslots : ((rollouts.drop
            (stale_scan S cfg.max_policy_lag rollouts).2).drop
            (macro_batch_size cfg cfg.batch_size / cfg.rollout)).map Rollout.slot =
          ((rollouts.drop (stale_scan S cfg.max_policy_lag rollouts).2).map
            Rollout.slot).drop
            (macro_batch_size cfg cfg.batch_size / cfg.rollout) := by
        rw [List.map_drop]
      have htpnd : (((rollouts.drop
            (stale_scan S cfg.max_policy_lag rollouts).2).take
            (macro_batch_size cfg cfg.batch_size / cfg.rollout)).map
            Rollout.slot).Nodup := by
        rw [htpslots]
        exact (List.take_sublist _ _).nodup hrestnd
      have hownnd : (owned_after owned
          (stale_scan S cfg.max_policy_lag rollouts).1).Nodup :=
        hscan2.nodup_iff.mpr hrestnd
      have hmemtp : ∀ r ∈ (rollouts.drop
            (stale_scan S cfg.max_policy_lag rollouts).2).take
            (macro_batch_size cfg cfg.batch_size / cfg.rollout),
          r.slot ∈ owned_after owned
            (stale_scan S cfg.max_policy_lag rollouts).1 := by
        intro r hr
        apply hscan2.mem_iff.mpr
        exact List.mem_map_of_mem Rollout.slot (List.mem_of_mem_take hr)
      constructor
      · rw [trace_ok_append]
        rw [hscan1]
        unfold prepare_events
        rw [trace_ok_append]
        rw [trace_ok_reads _ _ hmemtp]
        rw [owned_after_reads]
        rw [trace_ok_frees _ _ htpnd hownnd hmemtp]
        rfl
      · rw [owned_after_append]
        unfold prepare_events
        rw [owned_after_append, owned_after_reads, owned_after_frees]
        have hdiffp := (hscan2.diff_right (((rollouts.drop
            (stale_scan S cfg.max_policy_lag rollouts).2).take
            (macro_batch_size cfg cfg.batch_size / cfg.rollout)).map
            Rollout.slot))
        refine hdiffp.trans ?_
        rw [htpslots, hpendslots]
        have hsplit := List.take_append_drop
          (macro_batch_size cfg cfg.batch_size / cfg.rollout)
          ((rollouts.drop (stale_scan S cfg.max_policy_lag rollouts).2).map
            Rollout.slot)
        have hnd2 : (((rollouts.drop (stale_scan S cfg.max_policy_lag
              rollouts).2).map Rollout.slot).take
              (macro_batch_size cfg cfg.batch_size / cfg.rollout) ++
            ((rollouts.drop (stale_scan S cfg.max_policy_lag rollouts).2).map
              Rollout.slot).drop
              (macro_batch_size cfg cfg.batch_size / cfg.rollout)).Nodup := by
          rw [hsplit]
          exact hrestnd
        have heq := diff_append_self
          (((rollouts.drop (stale_scan S cfg.max_policy_lag rollouts).2).map
            Rollout.slot).take
            (macro_batch_size cfg cfg.batch_size / cfg.rollout))
          (((rollouts.drop (stale_scan S cfg.max_policy_lag rollouts).2).map
            Rollout.slot).drop
            (macro_batch_size cfg cfg.batch_size / cfg.rollout)) hnd2
        rw [hsplit] at heq
        rw [heq]
    · rw [if_neg henough]
      exact ⟨hscan1, hscan2⟩

/-- Over any well-formed submission sequence the full learner trace respects
slot ownership: no slot is written while pending, and no slot is read or
freed unless currently owned. -/
theorem learner_run_trace (cfg : Cfg) :
    ∀ (batches : List (Int × List Rollout)) (st : List Rollout)
      (owned : List Nat),
      (st.map Rollout.slot).Nodup → owned.Perm (st.map Rollout.slot) →
      wf_submissions cfg st batches = true →
      trace_ok owned (learner_run cfg st batches).1 = true
  | [], _, _, _, _, _ => rfl
  | b :: bs, st, owned, hnd, hperm, hwf => by
      rw [show wf_submissions cfg st (b :: bs) =
          (decide (b.2.map Rollout.slot).Nodup &&
            decide (∀ s ∈ b.2.map Rollout.slot, s ∉ st.map Rollout.slot) &&
            wf_submissions cfg (learner_step cfg st b).2 bs) from rfl] at hwf
      rw [Bool.and_eq_true, Bool.and_eq_true, decide_eq_true_iff,
        decide_eq_true_iff] at hwf
      obtain ⟨⟨hnd2, hdisj⟩, hwf'⟩ := hwf
      have hpendnd : ((st ++ b.2).map Rollout.slot).Nodup := by
        rw [List.map_append]
        refine hnd.append hnd2 ?_
        intro s hs1 hs2
        exact hdisj s hs2 hs1
      obtain ⟨hw1, hw2⟩ := trace_ok_writes b.2 owned hnd2
        (fun s hs hmem => hdisj s hs (hperm.mem_iff.mp hmem))
      have hw2' : (owned_after owned
            (b.2.map fun r => Ev.write r.slot)).Perm
          ((st ++ b.2).map Rollout.slot) := by
        rw [List.map_append]
        exact hw2.trans (hperm.append_right (b.2.map Rollout.slot))
      obtain ⟨hp1, hp2⟩ := process_rollouts_trace cfg b.1 (st ++ b.2)
        (owned_after owned (b.2.map fun r => Ev.write r.slot)) hpendnd hw2'
      have hpendnd' : ((process_rollouts cfg b.1 (st ++ b.2)).pending.map
          Rollout.slot).Nodup :=
        ((process_rollouts_pending_sublist cfg b.1 (st ++ b.2)).map
          Rollout.slot).nodup hpendnd
      have hrest := learner_run_trace cfg bs
        (process_rollouts cfg b.1 (st ++ b.2)).pending
        (owned_after (owned_after owned (b.2.map fun r => Ev.write r.slot))
          (process_rollouts cfg b.1 (st ++ b.2)).events)
        hpendnd' hp2 hwf'
      show trace_ok owned
        ((b.2.map fun r => Ev.write r.slot) ++
          (process_rollouts cfg b.1 (st ++ b.2)).events ++
          (learner_run cfg (process_rollouts cfg b.1 (st ++ b.2)).pending
            bs).1) = true
      rw [trace_ok_append, trace_ok_append, owned_after_append]
      rw [hw1, hp1, hrest]
      rfl

/-- Free events never hide among reads. -/
theorem count_free_reads (s : Nat) : ∀ rs : List Rollout,
    (rs.map fun r => Ev.read r.slot).count (Ev.free s) = 0
  | [] => rfl
  | a :: rs => by
      rw [List.map_cons, List.count_cons]
      simp [count_free_reads s rs]

/-- Counting a free event among frees counts the slot. -/
theorem count_free_frees (s : Nat) : ∀ rs : List Rollout,
    (rs.map fun r => Ev.free r.slot).count (Ev.free s) =
      (rs.map Rollout.slot).count s
  | [] => rfl
  | a :: rs => by
      rw [List.map_cons, List.count_cons, List.map_cons, List.count_cons,
        count_free_frees s rs]
      congr 1
      simp

/-- The staleness scan frees exactly the slots of the discarded prefix. -/
theorem count_free_scan (S maxLag : Int) (s : Nat) :
    ∀ rollouts : List Rollout,
      (stale_scan S maxLag rollouts).1.count (Ev.free s) =
        ((rollouts.take (stale_scan S maxLag rollouts).2).map
          Rollout.slot).count s
  | [] => rfl
  | a :: rs => by
      by_cases hstale : maxLag ≤ S - a.minVersion
      · rw [stale_scan_cons_stale hstale]
        show (Ev.read a.slot :: Ev.free a.slot ::
            (stale_scan S maxLag rs).1).count (Ev.free s) = _
        rw [List.count_cons, List.count_cons, List.take_succ_cons,
          List.map_cons, List.count_cons, count_free_scan S maxLag s rs]
        simp
      · rw [stale_scan_cons_fresh hstale]
        simp

/-- `_prepare_train_buffer` frees exactly the slots of the consumed
rollouts. -/
theorem count_free_prepare (s : Nat) (rs : List Rollout) :
    (prepare_events rs).count (Ev.free s) = (rs.map Rollout.slot).count s := by
  unfold prepare_events
  rw [List.count_append, count_free_reads, count_free_frees, Nat.zero_add]

/-- Each rollout of a pending queue with distinct slots is freed exactly once
by `_process_rollouts` if it leaves the queue (discarded or consumed), and
not at all if it stays pending. -/
theorem process_rollouts_free_once (cfg : Cfg) (S : Int)
    (rollouts : List Rollout)
    (hnd : (rollouts.map Rollout.slot).Nodup) :
    ∀ r ∈ rollouts,
      (r ∈ (process_rollouts cfg S rollouts).pending ∧
        (process_rollouts cfg S rollouts).events.count (Ev.free r.slot) = 0) ∨
      (r ∉ (process_rollouts cfg S rollouts).pending ∧
        (process_rollouts cfg S rollouts).events.count (Ev.free r.slot) = 1)
    := by
  intro r hr
  rw [process_rollouts_def]
  by_cases hlt : rollouts.length <
      macro_batch_size cfg cfg.batch_size / cfg.rollout
  · rw [if_pos hlt]
    exact Or.inl ⟨hr, rfl⟩
  · rw [if_neg hlt]
    by_cases henough : macro_batch_size cfg cfg.batch_size / cfg.rollout ≤
        (rollouts.drop (stale_scan S cfg.max_policy_lag rollouts).2).length
    · rw [if_pos henough]
      have hsplitA := List.take_append_drop
        (stale_scan S cfg.max_policy_lag rollouts).2 rollouts
      have hsplitB := List.take_append_drop
        (macro_batch_size cfg cfg.batch_size / cfg.rollout)
        (rollouts.drop (stale_scan S cfg.max_policy_lag rollouts).2)
      have hndA : ((rollouts.take (stale_scan S cfg.max_policy_lag
            rollouts).2).map Rollout.slot ++
          ((rollouts.drop (stale_scan S cfg.max_policy_lag rollouts).2).map
            Rollout.slot)).Nodup := by
        rw [← List.map_append, hsplitA]
        exact hnd
      have hdisjA := (List.nodup_append.mp hndA).2.2
      have hndC : (((rollouts.drop (stale_scan S cfg.max_policy_lag
            rollouts).2).take
            (macro_batch_size cfg cfg.batch_size / cfg.rollout)).map
            Rollout.slot ++
          (((rollouts.drop (stale_scan S cfg.max_policy_lag rollouts).2).drop
            (macro_batch_size cfg cfg.batch_size / cfg.rollout)).map
            Rollout.slot)).Nodup := by
        rw [← List.map_append, hsplitB]
        exact (List.nodup_append.mp hndA).2.1
      have hdisjB := (List.nodup_append.mp hndC).2.2
      have hcount : ((stale_scan S cfg.max_policy_lag rollouts).1 ++
            prepare_events ((rollouts.drop (stale_scan S cfg.max_policy_lag
              rollouts).2).take
              (macro_batch_size cfg cfg.batch_size / cfg.rollout))).count
            (Ev.free r.slot) =
          ((rollouts.take (stale_scan S cfg.max_policy_lag rollouts).2).map
            Rollout.slot).count r.slot +
          (((rollouts.drop (stale_scan S cfg.max_policy_lag rollouts).2).take
            (macro_batch_size cfg cfg.batch_size / cfg.rollout)).map
            Rollout.slot).count r.slot := by
        rw [List.count_append, count_free_scan, count_free_prepare]
      have hrsplit : r ∈ rollouts.take (stale_scan S cfg.max_policy_lag
            rollouts).2 ∨
          r ∈ (rollouts.drop (stale_scan S cfg.max_policy_lag
            rollouts).2).take
            (macro_batch_size cfg cfg.batch_size / cfg.rollout) ∨
          r ∈ (rollouts.drop (stale_scan S cfg.max_policy_lag
            rollouts).2).drop
            (macro_batch_size cfg cfg.batch_size / cfg.rollout) := by
        have h1 : r ∈ rollouts.take (stale_scan S cfg.max_policy_lag
              rollouts).2 ∨
            r ∈ rollouts.drop (stale_scan S cfg.max_policy_lag rollouts).2 := by
          rw [← List.mem_append, hsplitA]
          exact hr
        rcases h1 with h1 | h1
        · exact Or.inl h1
        · rw [← hsplitB, List.mem_append] at h1
          rcases h1 with h1 | h1
          · exact Or.inr (Or.inl h1)
          · exact Or.inr (Or.inr h1)
      rcases hrsplit with hcase | hcase | hcase
      · refine Or.inr ⟨?_, ?_⟩
        · intro hpend
          exact hdisjA (List.mem_map_of_mem Rollout.slot hcase)
            (List.mem_map_of_mem Rollout.slot
              (List.mem_of_mem_drop hpend))
        · rw [hcount]
          have hA : ((rollouts.take (stale_scan S cfg.max_policy_lag
                rollouts).2).map Rollout.slot).count r.slot = 1 :=
            List.count_eq_one_of_mem (List.nodup_append.mp hndA).1
              (List.mem_map_of_mem Rollout.slot hcase)
          have hB : (((rollouts.drop (stale_scan S cfg.max_policy_lag
                rollouts).2).take
                (macro_batch_size cfg cfg.batch_size / cfg.rollout)).map
                Rollout.slot).count r.slot = 0 := by
            rw [List.count_eq_zero]
            intro hmem
            exact hdisjA (List.mem_map_of_mem Rollout.slot hcase)
              ((List.map_take _ _ _ ▸ hmem : r.slot ∈ _) |>
                fun h => List.mem_of_mem_take h |>
                  fun h => h)
          rw [hA, hB]
      · refine Or.inr ⟨?_, ?_⟩
        · intro hpend
          exact hdisjB (List.mem_map_of_mem Rollout.slot hcase)
            (List.mem_map_of_mem Rollout.slot hpend)
        · rw [hcount]
          have hA : ((rollouts.take (stale_scan S cfg.max_policy_lag
                rollouts).2).map Rollout.slot).count r.slot = 0 := by
            rw [List.count_eq_zero]
            intro hmem
            exact hdisjA hmem (List.mem_map_of_mem Rollout.slot
              (List.mem_of_mem_take hcase))
          have hB : (((rollouts.drop (stale_scan S cfg.max_policy_lag
                rollouts).2).take
                (macro_batch_size cfg cfg.batch_size / cfg.rollout)).map
                Rollout.slot).count r.slot = 1 :=
            List.count_eq_one_of_mem (List.nodup_append.mp hndC).1
              (List.mem_map_of_mem Rollout.slot hcase)
          rw [hA, hB]
      · refine Or.inl ⟨hcase, ?_⟩
        rw [hcount]
        have hA : ((rollouts.take (stale_scan S cfg.max_policy_lag
              rollouts).2).map Rollout.slot).count r.slot = 0 := by
          rw [List.count_eq_zero]
          intro hmem
          exact hdisjA hmem (List.mem_map_of_mem Rollout.slot
            (List.mem_of_mem_drop hcase))
        have hB : (((rollouts.drop (stale_scan S cfg.max_policy_lag
              rollouts).2).take
              (macro_batch_size cfg cfg.batch_size / cfg.rollout)).map
              Rollout.slot).count r.slot = 0 := by
          rw [List.count_eq_zero]
          intro hmem
          exact hdisjB hmem (List.mem_map_of_mem Rollout.slot hcase)
        rw [hA, hB]
    · rw [if_neg henough]
      have hsplitA := List.take_append_drop
        (stale_scan S cfg.max_policy_lag rollouts).2 rollouts
      have hndA : ((rollouts.take (stale_scan S cfg.max_policy_lag
            rollouts).2).map Rollout.slot ++
          ((rollouts.drop (stale_scan S cfg.max_policy_lag rollouts).2).map
            Rollout.slot)).Nodup := by
        rw [← List.map_append, hsplitA]
        exact hnd
      have hdisjA := (List.nodup_append.mp hndA).2.2
      have h1 : r ∈ rollouts.take (stale_scan S cfg.max_policy_lag
            rollouts).2 ∨
          r ∈ rollouts.drop (stale_scan S cfg.max_policy_lag rollouts).2 := by
        rw [← List.mem_append, hsplitA]
        exact hr
      rcases h1 with hcase | hcase
      · refine Or.inr ⟨?_, ?_⟩
        · intro hpend
          exact hdisjA (List.mem_map_of_mem Rollout.slot hcase)
            (List.mem_map_of_mem Rollout.slot hpend)
        · rw [count_free_scan]
          exact List.count_eq_one_of_mem (List.nodup_append.mp hndA).1
            (List.mem_map_of_mem Rollout.slot hcase)
      · refine Or.inl ⟨hcase, ?_⟩
        rw [count_free_scan, List.count_eq_zero]
        intro hmem
        exact hdisjA hmem (List.mem_map_of_mem Rollout.slot hcase)

/-- C2: over every well-formed sequence of rollout submissions the learner
respects slot ownership—a slot is never read after being freed and never
freed twice without an intervening producer write—and within each
`_process_rollouts` call every rollout leaving the pending queue (discarded
as stale or copied into a macro-batch) has its slot freed exactly once, while
rollouts staying pending are not freed. -/
theorem slot_lifecycle (cfg : Cfg) :
    (∀ batches, wf_submissions cfg [] batches = true →
        trace_ok [] (learner_run cfg [] batches).1 = true) ∧
    (∀ (S : Int) (rollouts : List Rollout),
        (rollouts.map Rollout.slot).Nodup →
        ∀ r ∈ rollouts,
          (r ∈ (process_rollouts cfg S rollouts).pending ∧
            (process_rollouts cfg S rollouts).events.count
              (Ev.free r.slot) = 0) ∨
          (r ∉ (process_rollouts cfg S rollouts).pending ∧
            (process_rollouts cfg S rollouts).events.count
              (Ev.free r.slot) = 1)) := by
  constructor
  · intro batches hwf
    exact learner_run_trace cfg batches [] [] (by simp) (by simp) hwf
  · intro S rollouts hnd r hr
    exact process_rollouts_free_once cfg S rollouts hnd r hr

/-- C2 witness: a two-submission run passes the ownership checker, and on a
concrete queue a fresh rollout that stays pending is not freed. -/
theorem slot_lifecycle_witness :
    trace_ok [] (learner_run lagCfg []
      [(5, [freshRollout]), (5, [staleRollout])]).1 = true ∧
    ((freshRollout ∈
        (process_rollouts lagCfg 5 [freshRollout, staleRollout]).pending ∧
      (process_rollouts lagCfg 5 [freshRollout, staleRollout]).events.count
        (Ev.free freshRollout.slot) = 0) ∨
     (freshRollout ∉
        (process_rollouts lagCfg 5 [freshRollout, staleRollout]).pending ∧
      (process_rollouts lagCfg 5 [freshRollout, staleRollout]).events.count
        (Ev.free freshRollout.slot) = 1)) :=
  ⟨(slot_lifecycle lagCfg).1 [(5, [freshRollout]), (5, [staleRollout])]
      (by decide),
   (slot_lifecycle lagCfg).2 5 [freshRollout, staleRollout] (by decide)
      freshRollout (by decide)⟩

/-- Strict lexicographic comparison refutes equality. -/
theorem ne_of_lexLt {a b : List Nat} (h : lexLt a b = true) : a ≠ b := by
  intro heq
  subst heq
  rw [lexLt_irrefl a] at h
  exact Bool.false_ne_true h

/-- A fixed-width digit string has the fixed width. -/
theorem padDigits_length : ∀ (w n : Nat), (padDigits w n).length = w
  | 0, _ => rfl
  | w + 1, n => by
      rw [show padDigits (w + 1) n =
          (48 + n / 10 ^ w) :: padDigits w (n % 10 ^ w) from rfl,
        List.length_cons, padDigits_length w]

/-- A common prefix does not affect the comparison. -/
theorem lexLt_append_left : ∀ (p a b : List Nat),
    lexLt (p ++ a) (p ++ b) = lexLt a b
  | [], _, _ => rfl
  | x :: p, a, b => by
      rw [List.cons_append, List.cons_append,
        show lexLt (x :: (p ++ a)) (x :: (p ++ b)) =
          lexLt (p ++ a) (p ++ b) by simp [lexLt],
        lexLt_append_left p a b]

/-- A strict comparison of equal-length strings decides the comparison of any
extensions. -/
theorem lexLt_append_of_lt : ∀ (u v x y : List Nat),
    u.length = v.length → lexLt u v = true →
    lexLt (u ++ x) (v ++ y) = true
  | [], [], _, _, _, h => by
      rw [show lexLt ([] : List Nat) [] = false from rfl] at h
      exact absurd h (by simp)
  | [], _ :: _, _, _, hlen, _ => by simp at hlen
  | _ :: _, [], _, _, hlen, _ => by simp at hlen
  | a :: u, b :: v, x, y, hlen, h => by
      rcases Nat.lt_trichotomy a b with hab | hab | hab
      · simp [lexLt, hab]
      · subst hab
        rw [show lexLt (a :: u) (a :: v) = lexLt u v by simp [lexLt]] at h
        rw [List.cons_append, List.cons_append,
          show lexLt (a :: (u ++ x)) (a :: (v ++ y)) =
            lexLt (u ++ x) (v ++ y) by simp [lexLt]]
        exact lexLt_append_of_lt u v x y (by simpa using hlen) h
      · rw [show lexLt (a :: u) (b :: v) = false by
          simp [lexLt, hab, Nat.lt_asymm hab]] at h
        exact absurd h (by simp)

/-- Zero-padded fixed-width decimal strings compare like the numbers they
denote. -/
theorem padDigits_lt : ∀ (w a b : Nat), a < b → b < 10 ^ w →
    lexLt (padDigits w a) (padDigits w b) = true
  | 0, a, b, hab, hb => by
      interval_cases b <;> omega
  | w + 1, a, b, hab, hb => by
      rw [show padDigits (w + 1) a =
          (48 + a / 10 ^ w) :: padDigits w (a % 10 ^ w) from rfl,
        show padDigits (w + 1) b =
          (48 + b / 10 ^ w) :: padDigits w (b % 10 ^ w) from rfl]
      have hdivle : a / 10 ^ w ≤ b / 10 ^ w :=
        Nat.div_le_div_right (Nat.le_of_lt hab)
      rcases Nat.lt_or_ge (a / 10 ^ w) (b / 10 ^ w) with hdiv | hdiv
      · simp [lexLt, hdiv]
      · have hdiveq : a / 10 ^ w = b / 10 ^ w := Nat.le_antisymm hdivle hdiv
        have hpow : 0 < 10 ^ w := Nat.pos_pow_of_pos w (by omega)
        have hma := Nat.div_add_mod a (10 ^ w)
        have hmb := Nat.div_add_mod b (10 ^ w)
        have hmlt : a % 10 ^ w < b % 10 ^ w := by
          have h1 : 10 ^ w * (a / 10 ^ w) = 10 ^ w * (b / 10 ^ w) := by
            rw [hdiveq]
          omega
        have hmb2 : b % 10 ^ w < 10 ^ w := Nat.mod_lt b hpow
        rw [show lexLt ((48 + a / 10 ^ w) :: padDigits w (a % 10 ^ w))
            ((48 + b / 10 ^ w) :: padDigits w (b % 10 ^ w)) =
            lexLt (padDigits w (a % 10 ^ w)) (padDigits w (b % 10 ^ w)) by
          simp [lexLt, hdiveq]]
        exact padDigits_lt w _ _ hmlt hmb2

/-- Checkpoint filenames of distinct train steps below the padding bound
compare like the steps, regardless of the env-step suffix. -/
theorem checkpoint_name_lt (s1 e1 s2 e2 : Nat) (hs : s1 < s2)
    (hbound : s2 < 10 ^ 9) :
    lexLt (checkpoint_name s1 e1) (checkpoint_name s2 e2) = true := by
  unfold checkpoint_name
  simp only [List.append_assoc]
  rw [lexLt_append_left]
  exact lexLt_append_of_lt _ _ _ _
    (by rw [padDigits_length, padDigits_length])
    (padDigits_lt 9 s1 s2 hs hbound)

/-- A checkpoint filename carries the glob's prefix. -/
theorem checkpoint_name_has_prefix (s e : Nat) :
    (strCodes "checkpoint_").isPrefixOf (checkpoint_name s e) = true := by
  unfold checkpoint_name
  rw [show ∀ a b c d e : List Nat, a ++ b ++ c ++ d ++ e =
      a ++ (b ++ (c ++ (d ++ e))) from by intros; simp [List.append_assoc]]
  exact List.isPrefixOf_iff_prefix.mpr (List.prefix_append _ _)

/-- A matching file at the head of the listing contributes its name. -/
theorem checkpoint_names_cons_file (dir : List FsPath) (n : List Nat)
    (hn : (strCodes "checkpoint_").isPrefixOf n = true) :
    checkpoint_names ([n] :: dir) = n :: checkpoint_names dir := by
  have hn' : strCodes "checkpoint_" <+: n := List.isPrefixOf_iff_prefix.mp hn
  unfold checkpoint_names
  rw [List.filterMap_cons]
  simp [hn']

/-- A non-matching single-segment entry at the head contributes nothing. -/
theorem checkpoint_names_cons_badfile (dir : List FsPath) (n : List Nat)
    (hn : (strCodes "checkpoint_").isPrefixOf n = false) :
    checkpoint_names ([n] :: dir) = checkpoint_names dir := by
  have hn' : ¬ strCodes "checkpoint_" <+: n := by
    intro hc
    have h2 := List.isPrefixOf_iff_prefix.mpr hc
    rw [hn] at h2
    exact Bool.false_ne_true h2
  unfold checkpoint_names
  rw [List.filterMap_cons]
  simp [hn']

/-- Appending a matching file appends its name to the glob result. -/
theorem checkpoint_names_append_file (dir : List FsPath) (n : List Nat)
    (hn : (strCodes "checkpoint_").isPrefixOf n = true) :
    checkpoint_names (dir ++ [[n]]) = checkpoint_names dir ++ [n] := by
  have hn' : strCodes "checkpoint_" <+: n := List.isPrefixOf_iff_prefix.mp hn
  unfold checkpoint_names
  rw [List.filterMap_append]
  simp [hn']

/-- Appending a two-segment path (a file inside a subdirectory) never changes
the glob result. -/
theorem checkpoint_names_append_pair (dir : List FsPath) (a b : List Nat) :
    checkpoint_names (dir ++ [[a, b]]) = checkpoint_names dir := by
  unfold checkpoint_names
  rw [List.filterMap_append]
  simp

/-- Appending a non-matching single-segment entry (such as the `milestones`
subdirectory itself) never changes the glob result. -/
theorem checkpoint_names_append_nonmatch (dir : List FsPath) (n : List Nat)
    (hn : (strCodes "checkpoint_").isPrefixOf n = false) :
    checkpoint_names (dir ++ [[n]]) = checkpoint_names dir := by
  have hn' : ¬ strCodes "checkpoint_" <+: n := by
    intro hc
    have h2 := List.isPrefixOf_iff_prefix.mpr hc
    rw [hn] at h2
    exact Bool.false_ne_true h2
  unfold checkpoint_names
  rw [List.filterMap_append]
  simp [hn']

/-- Erasing a matching file erases exactly its name from the glob result. -/
theorem checkpoint_names_erase (n : List Nat)
    (hn : (strCodes "checkpoint_").isPrefixOf n = true) :
    ∀ dir : List FsPath,
      checkpoint_names (dir.erase [n]) = (checkpoint_names dir).erase n
  | [] => rfl
  | p :: dir => by
      by_cases hp : p = [n]
      · subst hp
        rw [List.erase_cons_head, checkpoint_names_cons_file dir n hn,
          List.erase_cons_head]
      · rw [List.erase_cons_tail (by simpa using hp)]
        match p with
        | [] =>
            rw [show ∀ d, checkpoint_names ([] :: d) = checkpoint_names d
                from fun d => rfl,
              show ∀ d, checkpoint_names ([] :: d) = checkpoint_names d
                from fun d => rfl,
              checkpoint_names_erase n hn dir]
        | [m] =>
            by_cases hm : (strCodes "checkpoint_").isPrefixOf m
            · have hmn : m ≠ n := by
                intro heq
                exact hp (by rw [heq])
              rw [checkpoint_names_cons_file _ m hm,
                checkpoint_names_cons_file _ m hm,
                List.erase_cons_tail (by simpa using hmn),
                checkpoint_names_erase n hn dir]
            · have hm' : (strCodes "checkpoint_").isPrefixOf m = false :=
                Bool.eq_false_iff.mpr hm
              rw [checkpoint_names_cons_badfile _ m hm',
                checkpoint_names_cons_badfile _ m hm',
                checkpoint_names_erase n hn dir]
        | a :: b :: rest =>
            rw [show ∀ d, checkpoint_names ((a :: b :: rest) :: d) =
                checkpoint_names d from fun d => rfl,
              show ∀ d, checkpoint_names ((a :: b :: rest) :: d) =
                checkpoint_names d from fun d => rfl,
              checkpoint_names_erase n hn dir]

/-- The pruning loop does nothing when the glob already matches at most
`keep_checkpoints` files. -/
theorem prune_loop_id (keep : Nat) (dir : List FsPath)
    (h : (checkpoint_names dir).length ≤ keep) : prune_loop keep dir = dir := by
  rw [prune_loop]
  rw [dif_neg]
  intro hcontra
  have hl : (get_checkpoints dir).length = (checkpoint_names dir).length :=
    (List.perm_insertionSort LexLe (checkpoint_names dir)).length_eq
  omega

/-- With exactly one file over the limit and sorted names, the pruning loop
removes exactly the lexicographically smallest file. -/
theorem prune_loop_step (keep : Nat) (dir : List FsPath)
    (hsorted : List.Pairwise (fun a b => lexLt a b = true)
      (checkpoint_names dir))
    (hlen : (checkpoint_names dir).length = keep + 1) :
    checkpoint_names (prune_loop keep dir) = (checkpoint_names dir).tail := by
  have hLexSorted : (checkpoint_names dir).Sorted LexLe := by
    refine hsorted.imp ?_
    intro a b hab
    exact lexLt_asymm a b hab
  have hgc : get_checkpoints dir = checkpoint_names dir :=
    hLexSorted.insertionSort_eq
  rw [prune_loop]
  rw [dif_pos (by rw [hgc, hlen]; omega)]
  have hheadpre : (strCodes "checkpoint_").isPrefixOf
      ((checkpoint_names dir).headD []) = true := by
    have hne : checkpoint_names dir ≠ [] := by
      intro hnil
      rw [hnil] at hlen
      simp at hlen
    cases hcn : checkpoint_names dir with
    | nil => exact absurd hcn hne
    | cons a l =>
        have ha : a ∈ checkpoint_names dir := by rw [hcn]; simp
        rw [List.headD_cons]
        exact (mem_checkpoint_names.mp ha).2
  have herase : checkpoint_names (dir.erase [(get_checkpoints dir).headD []]) =
      (checkpoint_names dir).tail := by
    rw [hgc, checkpoint_names_erase _ hheadpre dir]
    cases hcn : checkpoint_names dir with
    | nil => rfl
    | cons a l =>
        rw [List.headD_cons, List.erase_cons_head, List.tail_cons]
  rw [prune_loop_id keep _
    (by rw [herase, List.length_tail]; omega)]
  exact herase

/-- The pruning loop never removes anything but single-segment entries. -/
theorem prune_loop_keeps (p : FsPath) (hp : ∀ n : List Nat, p ≠ [n]) :
    ∀ (fuel keep : Nat) (dir : List FsPath), dir.length ≤ fuel →
      p ∈ dir → p ∈ prune_loop keep dir
  | 0, keep, dir, hfuel, hmem => by
      have : dir = [] := List.eq_nil_of_length_eq_zero (by omega)
      subst this
      simp at hmem
  | fuel + 1, keep, dir, hfuel, hmem => by
      rw [prune_loop]
      by_cases h : keep < (get_checkpoints dir).length
      · rw [dif_pos h]
        have hhd := head_get_checkpoints_mem h
        have hne : p ≠ [(get_checkpoints dir).headD []] := hp _
        refine prune_loop_keeps p hp fuel keep _ ?_
          ((List.mem_erase_of_ne hne).mpr hmem)
        have := List.length_erase_of_mem hhd
        omega
      · rw [dif_neg h]
        exact hmem

/-- Unfolded form of the `_save` filesystem effect. -/
theorem save_checkpoint_def (keep s e : Nat) (m : Bool) (dir : List FsPath) :
    save_checkpoint keep s e m dir =
      (if m then
        touch [strCodes "milestones",
            checkpoint_name s e ++ strCodes ".milestone"]
          (touch [strCodes "milestones"]
            (prune_loop keep (touch [checkpoint_name s e] dir)))
      else prune_loop keep (touch [checkpoint_name s e] dir)) := rfl

/-- The milestone copy (subdirectory entry plus milestone file) never changes
the set of glob-matched checkpoints. -/
theorem checkpoint_names_touch_milestone (dir2 : List FsPath)
    (name : List Nat) :
    checkpoint_names
        (touch [strCodes "milestones", name ++ strCodes ".milestone"]
          (touch [strCodes "milestones"] dir2)) =
      checkpoint_names dir2 := by
  have step2 : ∀ d : List FsPath,
      checkpoint_names
          (touch [strCodes "milestones", name ++ strCodes ".milestone"] d) =
        checkpoint_names d := by
    intro d
    unfold touch
    by_cases h : ([strCodes "milestones",
        name ++ strCodes ".milestone"] : FsPath) ∈ d
    · rw [if_pos h]
    · rw [if_neg h]
      exact checkpoint_names_append_pair d _ _
  have step1 : checkpoint_names (touch [strCodes "milestones"] dir2) =
      checkpoint_names dir2 := by
    unfold touch
    by_cases h : ([strCodes "milestones"] : FsPath) ∈ dir2
    · rw [if_pos h]
    · rw [if_neg h]
      exact checkpoint_names_append_nonmatch dir2 _ (by decide)
  rw [step2, step1]

/-- The glob result of one `_save`: the new name is appended and, when the
retention limit was already full, the lexicographically smallest (oldest)
name is pruned. -/
theorem save_checkpoint_names (keep : Nat) (dir : List FsPath)
    (hist : List (Nat × Nat)) (s e : Nat) (m : Bool)
    (hnames : checkpoint_names dir =
      hist.map (fun x => checkpoint_name x.1 x.2))
    (hlen : hist.length ≤ keep)
    (hpl : List.Pairwise (fun a b => lexLt a b = true)
      (hist.map (fun x => checkpoint_name x.1 x.2) ++ [checkpoint_name s e])) :
    checkpoint_names (save_checkpoint keep s e m dir) =
      (hist.map (fun x => checkpoint_name x.1 x.2) ++
        [checkpoint_name s e]).drop ((hist.length + 1) - keep) := by
  have hpre := checkpoint_name_has_prefix s e
  have hlt_all : ∀ x ∈ hist.map (fun x => checkpoint_name x.1 x.2),
      lexLt x (checkpoint_name s e) = true := by
    intro x hx
    exact (List.pairwise_append.mp hpl).2.2 x hx _ (by simp)
  have hnotint : checkpoint_name s e ∉ checkpoint_names dir := by
    rw [hnames]
    intro hmem
    have hirr := hlt_all _ hmem
    rw [lexLt_irrefl] at hirr
    exact Bool.false_ne_true hirr
  have hnotdir : ([checkpoint_name s e] : FsPath) ∉ dir := by
    intro hmem
    exact hnotint (mem_checkpoint_names.mpr ⟨hmem, hpre⟩)
  have htouch : touch [checkpoint_name s e] dir =
      dir ++ [[checkpoint_name s e]] := by
    unfold touch
    rw [if_neg hnotdir]
  have hnames1 : checkpoint_names (touch [checkpoint_name s e] dir) =
      hist.map (fun x => checkpoint_name x.1 x.2) ++ [checkpoint_name s e] := by
    rw [htouch, checkpoint_names_append_file _ _ hpre, hnames]
  have hlen1 : (checkpoint_names (touch [checkpoint_name s e] dir)).length =
      hist.length + 1 := by
    rw [hnames1]
    simp
  have hfinal : checkpoint_names (save_checkpoint keep s e m dir) =
      checkpoint_names (prune_loop keep (touch [checkpoint_name s e] dir)) := by
    rw [save_checkpoint_def]
    cases m with
    | false => rw [if_neg (by simp)]
    | true => rw [if_pos rfl, checkpoint_names_touch_milestone]
  rw [hfinal]
  rcases Nat.lt_or_ge hist.length keep with hcase | hcase
  · rw [prune_loop_id keep _ (by omega), hnames1,
      Nat.sub_eq_zero_of_le (by omega), List.drop_zero]
  · have hkeq : hist.length = keep := Nat.le_antisymm hlen hcase
    rw [prune_loop_step keep _ (by rw [hnames1]; exact hpl)
        (by rw [hlen1, hkeq]),
      hnames1, show hist.length + 1 - keep = 1 by omega, List.drop_one]

/-- An existing entry survives `touch`. -/
theorem mem_touch_of_mem (p q : FsPath) (dir : List FsPath) (h : p ∈ dir) :
    p ∈ touch q dir := by
  unfold touch
  by_cases hq : q ∈ dir
  · rw [if_pos hq]
    exact h
  · rw [if_neg hq]
    exact List.mem_append_left _ h

/-- The touched entry is present afterwards. -/
theorem mem_touch_self (p : FsPath) (dir : List FsPath) : p ∈ touch p dir := by
  unfold touch
  by_cases h : p ∈ dir
  · rw [if_pos h]
    exact h
  · rw [if_neg h]
    exact List.mem_append_right _ (by simp)

/-- A multi-segment path (anything under a subdirectory) survives `_save`. -/
theorem save_checkpoint_keeps (keep s e : Nat) (m : Bool) (dir : List FsPath)
    (p : FsPath) (hp : ∀ n : List Nat, p ≠ [n]) (hmem : p ∈ dir) :
    p ∈ save_checkpoint keep s e m dir := by
  rw [save_checkpoint_def]
  have h1 : p ∈ touch [checkpoint_name s e] dir := mem_touch_of_mem _ _ _ hmem
  have h2 : p ∈ prune_loop keep (touch [checkpoint_name s e] dir) :=
    prune_loop_keeps p hp _ keep _ (Nat.le_refl _) h1
  cases m with
  | false =>
      rw [if_neg (by simp)]
      exact h2
  | true =>
      rw [if_pos rfl]
      exact mem_touch_of_mem _ _ _ (mem_touch_of_mem _ _ _ h2)

/-- A multi-segment path survives an entire save sequence. -/
theorem save_run_keeps (keep : Nat) :
    ∀ (saves : List (Nat × Nat × Bool)) (dir : List FsPath) (p : FsPath),
      (∀ n : List Nat, p ≠ [n]) → p ∈ dir → p ∈ save_run keep dir saves
  | [], _, _, _, h => h
  | sv :: rest, dir, p, hp, h =>
      save_run_keeps keep rest _ p hp
        (save_checkpoint_keeps keep sv.1 sv.2.1 sv.2.2 dir p hp h)

/-- Every milestone written during a save sequence is present at the end:
milestone files are never deleted by pruning. -/
theorem save_run_milestones (keep : Nat) :
    ∀ (saves : List (Nat × Nat × Bool)) (dir : List FsPath),
      ∀ x ∈ saves, x.2.2 = true →
        [strCodes "milestones",
          checkpoint_name x.1 x.2.1 ++ strCodes ".milestone"] ∈
          save_run keep dir saves
  | [], _, x, hx, _ => by simp at hx
  | sv :: rest, dir, x, hx, hflag => by
      have hp : ∀ n : List Nat,
          ([strCodes "milestones",
            checkpoint_name x.1 x.2.1 ++ strCodes ".milestone"] : FsPath) ≠
            [n] := by
        intro n h
        simp at h
      rcases List.mem_cons.mp hx with rfl | hx2
      · show _ ∈ save_run keep (save_checkpoint keep x.1 x.2.1 x.2.2 dir) rest
        refine save_run_keeps keep rest _ _ hp ?_
        rw [hflag, save_checkpoint_def, if_pos rfl]
        exact mem_touch_self _ _
      · exact save_run_milestones keep rest
          (save_checkpoint keep sv.1 sv.2.1 sv.2.2 dir) x hx2 hflag

/-- The glob result after a whole save sequence with increasing train steps:
the listing holds exactly the newest `keep_checkpoints` names (all of them
when fewer have been written). -/
theorem save_run_names (keep : Nat) :
    ∀ (saves : List (Nat × Nat × Bool)) (dir : List FsPath)
      (hist : List (Nat × Nat)),
      checkpoint_names dir = hist.map (fun x => checkpoint_name x.1 x.2) →
      hist.length ≤ keep →
      List.Pairwise (· < ·)
        (hist.map Prod.fst ++ saves.map (fun x => x.1)) →
      (∀ x ∈ hist.map Prod.fst ++ saves.map (fun x => x.1), x < 10 ^ 9) →
      checkpoint_names (save_run keep dir saves) =
        ((hist ++ saves.map (fun x => (x.1, x.2.1))).map
          (fun x => checkpoint_name x.1 x.2)).drop
          ((hist.length + saves.length) - keep)
  | [], dir, hist, hnames, hlen, _, _ => by
      simp only [List.map_nil, List.append_nil, List.length_nil,
        Nat.add_zero]
      rw [Nat.sub_eq_zero_of_le hlen, List.drop_zero]
      exact hnames
  | sv :: rest, dir, hist, hnames, hlen, hmono, hbound => by
      have hs_bound : sv.1 < 10 ^ 9 :=
        hbound sv.1 (List.mem_append_right _ (by simp))
      have hmono_split := List.pairwise_append.mp hmono
      have hpl : List.Pairwise (fun a b => lexLt a b = true)
          (hist.map (fun x => checkpoint_name x.1 x.2) ++
            [checkpoint_name sv.1 sv.2.1]) := by
        rw [List.pairwise_append]
        refine ⟨?_, by simp, ?_⟩
        · rw [List.pairwise_map]
          refine (List.pairwise_map.mp hmono_split.1).imp_of_mem ?_
          intro a b ha hb hab
          exact checkpoint_name_lt a.1 a.2 b.1 b.2 hab
            (hbound b.1 (List.mem_append_left _
              (List.mem_map_of_mem Prod.fst hb)))
        · intro x hx y hy
          rcases List.mem_singleton.mp hy with rfl
          rcases List.mem_map.mp hx with ⟨a, ha, rfl⟩
          have halt : a.1 < sv.1 := hmono_split.2.2 a.1
            (List.mem_map_of_mem Prod.fst ha) sv.1 (by simp)
          exact checkpoint_name_lt a.1 a.2 sv.1 sv.2.1 halt hs_bound
      have hstep := save_checkpoint_names keep dir hist sv.1 sv.2.1 sv.2.2
        hnames hlen hpl
      have hnamesNew : checkpoint_names
          (save_checkpoint keep sv.1 sv.2.1 sv.2.2 dir) =
          ((hist ++ [(sv.1, sv.2.1)]).drop ((hist.length + 1) - keep)).map
            (fun x => checkpoint_name x.1 x.2) := by
        rw [List.map_drop, List.map_append]
        exact hstep
      have hlenNew : ((hist ++ [(sv.1, sv.2.1)]).drop
          ((hist.length + 1) - keep)).length ≤ keep := by
        rw [List.length_drop, List.length_append]
        simp only [List.length_singleton]
        omega
      have hstepsNew : ((hist ++ [(sv.1, sv.2.1)]).drop
            ((hist.length + 1) - keep)).map Prod.fst ++
            rest.map (fun x => x.1) =
          ((hist.map Prod.fst ++ [sv.1]).drop ((hist.length + 1) - keep)) ++
            rest.map (fun x => x.1) := by
        rw [List.map_drop, List.map_append]
        rfl
      have hsub : (((hist.map Prod.fst ++ [sv.1]).drop
            ((hist.length + 1) - keep)) ++ rest.map (fun x => x.1)).Sublist
          ((hist.map Prod.fst ++ [sv.1]) ++ rest.map (fun x => x.1)) :=
        (List.drop_sublist _ _).append_right _
      have hassoc : (hist.map Prod.fst ++ [sv.1]) ++
            rest.map (fun x => x.1) =
          hist.map Prod.fst ++ ((sv :: rest).map (fun x => x.1)) := by
        rw [List.map_cons, List.append_assoc, List.singleton_append]
      have hmonoNew : List.Pairwise (· < ·)
          (((hist ++ [(sv.1, sv.2.1)]).drop
            ((hist.length + 1) - keep)).map Prod.fst ++
            rest.map (fun x => x.1)) := by
        rw [hstepsNew]
        exact (hassoc ▸ hmono).sublist hsub
      have hboundNew : ∀ x ∈ ((hist ++ [(sv.1, sv.2.1)]).drop
            ((hist.length + 1) - keep)).map Prod.fst ++
            rest.map (fun x => x.1), x < 10 ^ 9 := by
        rw [hstepsNew]
        intro x hx
        exact hbound x (hassoc ▸ hsub.subset hx)
      have hrest := save_run_names keep rest
        (save_checkpoint keep sv.1 sv.2.1 sv.2.2 dir)
        ((hist ++ [(sv.1, sv.2.1)]).drop ((hist.length + 1) - keep))
        hnamesNew hlenNew hmonoNew hboundNew
      show checkpoint_names (save_run keep
          (save_checkpoint keep sv.1 sv.2.1 sv.2.2 dir) rest) = _
      rw [hrest]
      have hjle : (hist.length + 1) - keep ≤
          ((hist ++ [(sv.1, sv.2.1)]).map
            (fun x => checkpoint_name x.1 x.2)).length := by
        rw [List.length_map, List.length_append]
        simp only [List.length_singleton]
        omega
      rw [List.map_append, List.map_drop,
        ← List.drop_append_of_le_length hjle, List.drop_drop,
        ← List.map_append, List.append_assoc, List.singleton_append]
      rw [show List.map (fun x => (x.1, x.2.1)) (sv :: rest) =
        (sv.1, sv.2.1) :: List.map (fun x => (x.1, x.2.1)) rest from rfl]
      congr 1
      simp [List.length_drop, List.length_append, List.length_cons,
        List.length_nil, List.length_singleton, List.length_map]
      omega

/-- C7: after any sequence of saves with strictly increasing train steps
(below the 9-digit padding bound), the checkpoint glob matches exactly the
most recent `keep_checkpoints` checkpoint files (all of them while fewer have
been written)—pruning repeatedly removed the lexicographically smallest,
numerically oldest file—and every milestone copy written under `milestones/`
is still present, never matched or deleted by the pruning glob. -/
theorem checkpoint_retention (keep : Nat) (saves : List (Nat × Nat × Bool))
    (hmono : List.Pairwise (· < ·) (saves.map (fun x => x.1)))
    (hbound : ∀ x ∈ saves.map (fun x => x.1), x < 10 ^ 9) :
    get_checkpoints (save_run keep [] saves) =
      ((saves.map (fun x => (x.1, x.2.1))).map
        (fun x => checkpoint_name x.1 x.2)).drop (saves.length - keep) ∧
    (get_checkpoints (save_run keep [] saves)).length =
      min saves.length keep ∧
    (∀ x ∈ saves, x.2.2 = true →
      [strCodes "milestones",
        checkpoint_name x.1 x.2.1 ++ strCodes ".milestone"] ∈
        save_run keep [] saves) := by
  have hnames := save_run_names keep saves [] [] rfl (by simp)
    (by simpa using hmono) (by simpa using hbound)
  simp only [List.nil_append, List.length_nil, Nat.zero_add] at hnames
  have hplfull : List.Pairwise (fun a b => lexLt a b = true)
      ((saves.map (fun x => (x.1, x.2.1))).map
        (fun x => checkpoint_name x.1 x.2)) := by
    rw [List.pairwise_map, List.pairwise_map]
    have hmono2 : List.Pairwise (fun a b : Nat × Nat × Bool => a.1 < b.1)
        saves := List.pairwise_map.mp hmono
    refine hmono2.imp_of_mem ?_
    intro a b ha hb hab
    exact checkpoint_name_lt a.1 a.2.1 b.1 b.2.1 hab
      (hbound b.1 (List.mem_map_of_mem _ hb))
  have hsorted : (checkpoint_names (save_run keep [] saves)).Sorted LexLe := by
    rw [hnames]
    refine ((hplfull.sublist (List.drop_sublist _ _)).imp ?_)
    intro a b hab
    exact lexLt_asymm a b hab
  have hgc : get_checkpoints (save_run keep [] saves) =
      checkpoint_names (save_run keep [] saves) :=
    hsorted.insertionSort_eq
  refine ⟨by rw [hgc, hnames], ?_, ?_⟩
  · rw [hgc, hnames, List.length_drop, List.length_map, List.length_map]
    omega
  · intro x hx hflag
    exact save_run_milestones keep saves [] x hx hflag

/-- C7 witness: three saves with retention limit 1; one checkpoint remains
(the newest) and the milestone written at step 2 is still present. -/
theorem checkpoint_retention_witness :
    (get_checkpoints (save_run 1 []
        [(1, 10, false), (2, 20, true), (3, 30, false)])).length =
      min 3 1 ∧
    [strCodes "milestones", checkpoint_name 2 20 ++ strCodes ".milestone"] ∈
      save_run 1 [] [(1, 10, false), (2, 20, true), (3, 30, false)] := by
  have h := checkpoint_retention 1
    [(1, 10, false), (2, 20, true), (3, 30, false)] (by decide) (by decide)
  exact ⟨h.2.1, h.2.2 (2, 20, true) (by decide) rfl⟩

end Learner
